import Mathlib

/-!
# The `rate` aggregator (`plugins/aggregators/rate/rate.go`)

A shallow embedding of the aggregator's cache, of `Add`, `Push`, `Reset` and of
the helpers they call, followed by theorems about them.

* Go's `float64` is `F64`: IEEE 754 binary64 with round to nearest, ties to
  even.  The operations the aggregator performs are defined: `>=`, `-`, `/`,
  `*` and the conversions from and to `int64` (and `<`, to state what a
  decreased counter is).
* `int64(x)` of a `float64` that is a NaN or does not fit in 64 bits is left
  to the implementation by the Go specification.  It is the parameter `ovf`
  of `Add`; `F64.amd64` and `F64.saturating` are the two behaviours of the
  common platforms.
* The wall clock `time.Now().Unix()` is the argument `ts` of `Add`, an
  `int64`.  The subtraction `ts - ld.timestamp` is that of Go: the exact
  difference reduced into the range of `int64` (`wrap64`).
* A Go map is an association list without repeated keys (`AList`); the
  order of its entries stands for the order in which Go happens to iterate.
-/

/-! ## float64 -/

/-- A `float64` value: not-a-number, an infinity, or the finite number
`(-1)^neg * m * 2^e`.  The values the hardware produces have `m < 2^53` and
`-1074 ≤ e ≤ 971`; zero is `m = 0` and keeps its sign. -/
inductive F64 where
  | nan : F64
  | inf (neg : Bool) : F64
  | fin (neg : Bool) (m : Nat) (e : Int) : F64
deriving DecidableEq

namespace F64

/-- The natural number `2^k` for `k ≥ 0`, and `1` for `k < 0`. -/
def pow2 (k : Int) : Nat := 2 ^ k.toNat

/-- Attach a sign to a magnitude. -/
def signed (neg : Bool) (n : Nat) : Int := if neg then -(n : Int) else (n : Int)

/-- Halving loop behind `log2`; `fuel` bounds the number of halvings. -/
def log2Aux : Nat → Nat → Nat
  | 0, _ => 0
  | fuel + 1, n => if n < 2 then 0 else log2Aux fuel (n / 2) + 1

/-- The position of the leading bit of `n`: `2^(log2 n) ≤ n < 2^(log2 n + 1)`
for `n > 0`. -/
def log2 (n : Nat) : Nat := log2Aux n n

/-- Zero with the given sign. -/
def zero (neg : Bool) : F64 := fin neg 0 (-1074)

/-- The binade of the positive rational `num / den`: the integer `b` with
`2^b ≤ num / den < 2^(b+1)`. -/
def binade (num den : Nat) : Int :=
  let d : Int := (log2 num : Int) - (log2 den : Int)
  if num * pow2 (-d) < den * pow2 d then d - 1 else d

/-- The integer nearest to `n / dn`, the even one of the two when `n / dn`
lies half way. -/
def rne (n dn : Nat) : Nat :=
  let q := n / dn
  let r := n % dn
  if 2 * r < dn then q else if dn < 2 * r then q + 1 else if q % 2 = 0 then q else q + 1

/-- The binary64 value `m * 2^e` for a significand `m ≤ 2^53` that comes out
of a rounding: `2^53` is renormalised to `2^52 * 2^(e+1)`, and an exponent
above that of the largest finite value gives an infinity. -/
def pack (neg : Bool) (m : Nat) (e : Int) : F64 :=
  let e1 : Int := if m = 2 ^ 53 then e + 1 else e
  let m1 : Nat := if m = 2 ^ 53 then 2 ^ 52 else m
  if 971 < e1 then inf neg else fin neg m1 e1

/-- Round the exact rational `num / den ≥ 0` (with `den > 0`) to the nearest
binary64 value of sign `neg`, ties to even: 53 significant bits, gradual
underflow below `2^-1022` (the last place is never below `2^-1074`),
overflow to infinity above the largest finite value. -/
def round (neg : Bool) (num den : Nat) : F64 :=
  if num = 0 then zero neg
  else
    -- the exponent of the last place
    let e : Int := max (binade num den) (-1022) - 52
    pack neg (rne (num * pow2 (-e)) (den * pow2 e)) e

/-- Go's `float64(i)` for an integer `i`. -/
def ofInt (i : Int) : F64 := round (decide (i < 0)) i.natAbs 1

/-- Go's `int64(x)`: truncation toward zero.  When `x` is a NaN or the
truncated value does not fit in 64 bits the Go specification leaves the result to
the implementation; `ovf x` is that result. -/
def toInt64 (ovf : F64 → Int) : F64 → Int
  | fin neg m e =>
    let v := signed neg (m * pow2 e / pow2 (-e))
    if -2 ^ 63 ≤ v ∧ v < 2 ^ 63 then v else ovf (fin neg m e)
  | x => ovf x

/-- The integer part of a finite value: truncation toward zero, the
mathematical value of `int64(x)` when it fits.  A NaN and the infinities have none. -/
def trunc : F64 → Option Int
  | fin neg m e => some (signed neg (m * pow2 e / pow2 (-e)))
  | _ => none

/-- Go's `x >= y`; false as soon as one side is a NaN. -/
def ge : F64 → F64 → Bool
  | nan, _ => false
  | _, nan => false
  | inf na, inf nb => !na || nb
  | inf na, fin _ _ _ => !na
  | fin _ _ _, inf nb => nb
  | fin na ma ea, fin nb mb eb =>
    decide (signed nb (mb * pow2 eb * pow2 (-ea)) ≤ signed na (ma * pow2 ea * pow2 (-eb)))

/-- Go's `x < y`; false as soon as one side is a NaN. -/
def lt : F64 → F64 → Bool
  | nan, _ => false
  | _, nan => false
  | inf na, inf nb => na && !nb
  | inf na, fin _ _ _ => na
  | fin _ _ _, inf nb => !nb
  | fin na ma ea, fin nb mb eb =>
    decide (signed na (ma * pow2 ea * pow2 (-eb)) < signed nb (mb * pow2 eb * pow2 (-ea)))

/-- Go's `x - y`. -/
def sub : F64 → F64 → F64
  | nan, _ => nan
  | _, nan => nan
  | inf na, inf nb => if na = nb then nan else inf na
  | inf na, fin _ _ _ => inf na
  | fin _ _ _, inf nb => inf (!nb)
  | fin na ma ea, fin nb mb eb =>
    let a : Int := signed na (ma * pow2 ea * pow2 (-eb)) - signed nb (mb * pow2 eb * pow2 (-ea))
    if a = 0 then zero (na && !nb)
    else round (decide (a < 0)) a.natAbs (pow2 (-ea) * pow2 (-eb))

/-- Go's `x / y`. -/
def div : F64 → F64 → F64
  | nan, _ => nan
  | _, nan => nan
  | inf _, inf _ => nan
  | inf na, fin nb _ _ => inf (xor na nb)
  | fin na _ _, inf nb => zero (xor na nb)
  | fin na ma ea, fin nb mb eb =>
    if mb = 0 then (if ma = 0 then nan else inf (xor na nb))
    else round (xor na nb) (ma * pow2 ea * pow2 (-eb)) (mb * pow2 eb * pow2 (-ea))

/-- Go's `x * y`. -/
def mul : F64 → F64 → F64
  | nan, _ => nan
  | _, nan => nan
  | inf na, inf nb => inf (xor na nb)
  | inf na, fin nb mb _ => if mb = 0 then nan else inf (xor na nb)
  | fin na ma _, inf nb => if ma = 0 then nan else inf (xor na nb)
  | fin na ma ea, fin nb mb eb =>
    round (xor na nb) (ma * pow2 ea * (mb * pow2 eb)) (pow2 (-ea) * pow2 (-eb))

instance : Sub F64 := ⟨sub⟩
instance : Div F64 := ⟨div⟩
instance : Mul F64 := ⟨mul⟩

/-- The result of an out-of-range `int64(x)` on amd64: the instruction
`CVTTSD2SQ` returns the "integer indefinite" value `-2^63`. -/
def amd64 : F64 → Int := fun _ => -2 ^ 63

/-- The result of an out-of-range `int64(x)` on platforms whose conversion
saturates (arm64): 0 for a NaN, otherwise the nearest bound of
`int64`. -/
def saturating : F64 → Int
  | nan => 0
  | inf neg => if neg then -2 ^ 63 else 2 ^ 63 - 1
  | fin neg _ _ => if neg then -2 ^ 63 else 2 ^ 63 - 1

/-- A value whose significand fits in 53 bits, as every result of a
rounding does. -/
def Rounded : F64 → Prop
  | fin _ m _ => m < 2 ^ 53
  | _ => True

/-- An `int64` that the conversion to `float64` and back gives again. -/
def Stable (ovf : F64 → Int) (r : Int) : Prop := toInt64 ovf (ofInt r) = r

end F64

/-! ## Data model -/

/-- The Go type `last`: state of one field of one series. -/
structure last where
  val : F64
  timestamp : Int
  rate : Int
deriving DecidableEq

/-- Equality of association lists is decided on their entries. -/
instance AList.decEqEntries {α : Type} {β : α → Type} [DecidableEq α] [∀ a, DecidableEq (β a)] :
    DecidableEq (AList β) :=
  fun s t => decidable_of_iff (s.entries = t.entries) AList.ext_iff.symm

/-- A Go `map[string]V`: association list without repeated keys. -/
abbrev StrMap (V : Type) := AList (fun _ : String => V)

/-- The Go type `aggregate`: one cached series. -/
structure aggregate where
  fields : StrMap last
  name : String
  tags : StrMap String
deriving DecidableEq

/-- The Go type `Rate`.  `cache` is `none` for the nil map; the keys of the
map are the `uint64` hash ids of the series. -/
structure Rate where
  cache : Option (AList (fun _ : Nat => aggregate))
  Suffix : String
  Metrics : List String
  RateFields : List String
  BitRateFields : List String
deriving DecidableEq

/-- A field value of a metric (`interface{}` in Go): telegraf fields are
floats, signed or unsigned integers, strings or booleans. -/
inductive Value where
  | float64 (v : F64) : Value
  | int64 (v : Int) : Value
  | uint64 (v : Nat) : Value
  | str (v : String) : Value
  | bool (v : Bool) : Value
deriving DecidableEq

/-- What `Add` reads from a `telegraf.Metric`: `Name()`, `Tags()`,
`Fields()` and `HashID()`. -/
structure Metric where
  name : String
  tags : StrMap String
  fields : StrMap Value
  hashID : Nat
deriving DecidableEq

/-- One call `acc.AddFields(name, fields, tags)` received by the accumulator. -/
structure Record where
  name : String
  fields : StrMap Int
  tags : StrMap String
deriving DecidableEq

/-! ## Operations -/

/-- The loop shared by `IsRateMetric`, `IsRateField` and `IsBitRateField`:
true as soon as an element of the list equals `obj`. -/
def scan (obj : String) : List String → Bool
  | [] => false
  | x :: rest => if x = obj then true else scan obj rest

/-- The method `Rate.IsRateMetric`: is the name in `Metrics`. -/
def Rate.IsRateMetric (m : Rate) (obj : String) : Bool := scan obj m.Metrics

/-- The method `Rate.IsRateField`: is the name in `RateFields`. -/
def Rate.IsRateField (m : Rate) (obj : String) : Bool := scan obj m.RateFields

/-- The method `Rate.IsBitRateField`: is the name in `BitRateFields`. -/
def Rate.IsBitRateField (m : Rate) (obj : String) : Bool := scan obj m.BitRateFields

/-- The Go function `convert`. -/
def convert : Value → Option F64
  | Value.float64 v => some v
  | Value.int64 v => some (F64.ofInt v)
  | Value.uint64 v => some (F64.ofInt v)
  | _ => none

/-- Body of the loop of `Add` over the fields of a metric that is not cached
yet (lines 107-117): `a.fields[k] = last{fv, ts, 0}` for a configured numeric field. -/
def Rate.initField (m : Rate) (ts : Int) (fs : StrMap last) (k : String) (v : Value) :
    StrMap last :=
  if m.IsBitRateField k || m.IsRateField k then
    match convert v with
    | some fv => fs.insert k { val := fv, timestamp := ts, rate := 0 }
    | none => fs
  else fs

/-- The `int64` that Go's wrapping arithmetic gives for the exact integer
`i`: the integer of `[-2^63, 2^63)` congruent to `i` modulo `2^64`. -/
def wrap64 (i : Int) : Int := (i + 2 ^ 63) % 2 ^ 64 - 2 ^ 63

/-- The rate computed for a field that already has a state (lines 133-148).
`period` is an `int64` difference (line 135). -/
def Rate.newRate (m : Rate) (ts : Int) (k : String) (fv : F64) (ld : last) : F64 :=
  let period := wrap64 (ts - ld.timestamp)
  if period < 2 then F64.ofInt ld.rate
  else if F64.ge fv ld.val then
    let rate := (fv - ld.val) / F64.ofInt period
    if m.IsBitRateField k then rate * F64.ofInt 8 else rate
  else F64.ofInt ld.rate

/-- Body of the loop of `Add` over the fields of a cached metric (lines
120-158), on the field map `m.cache[id].fields`. -/
def Rate.updateField (ovf : F64 → Int) (m : Rate) (ts : Int) (fs : StrMap last)
    (k : String) (v : Value) : StrMap last :=
  if m.IsBitRateField k || m.IsRateField k then
    match convert v with
    | some fv =>
      match fs.lookup k with
      | none => fs.insert k { val := fv, timestamp := ts, rate := 0 }
      | some ld =>
        fs.insert k { val := fv, timestamp := ts, rate := F64.toInt64 ovf (m.newRate ts k fv ld) }
    | none => fs
  else fs

/-- The method `Rate.Add`, with the clock reading `ts`.  The result is `none` when the
Go code panics: writing an entry into the nil map. -/
def Rate.Add (ovf : F64 → Int) (m : Rate) (ts : Int) (inp : Metric) : Option Rate :=
  if !m.IsRateMetric inp.name then some m
  else
    match m.cache with
    | none => none
    | some c =>
      match c.lookup inp.hashID with
      | none =>
        let a : aggregate :=
          { name := inp.name
            tags := inp.tags
            fields := inp.fields.entries.foldl (fun fs kv => m.initField ts fs kv.1 kv.2) ∅ }
        some { m with cache := some (c.insert inp.hashID a) }
      | some a =>
        let fs := inp.fields.entries.foldl (fun fs kv => m.updateField ovf ts fs kv.1 kv.2) a.fields
        some { m with cache := some (c.insert inp.hashID { a with fields := fs }) }

/-- The field map `Push` builds for one series: `fields[k+m.Suffix] = v.rate`. -/
def Rate.render (m : Rate) (a : aggregate) : StrMap Int :=
  a.fields.entries.foldl (fun out kv => out.insert (kv.1 ++ m.Suffix) kv.2.rate) ∅

/-- The method `Rate.Push`: the calls of `acc.AddFields`, one per cached series. -/
def Rate.Push (m : Rate) : List Record :=
  match m.cache with
  | none => []
  | some c => c.entries.map (fun e => { name := e.2.name, fields := m.render e.2, tags := e.2.tags })

/-- The method `Rate.Reset`: allocates the cache when it is nil, nothing else. -/
def Rate.Reset (m : Rate) : Rate :=
  match m.cache with
  | none => { m with cache := some ∅ }
  | some _ => m

/-- The function `NewRate`: a zero `Rate` on which `Reset` has been called. -/
def NewRate : Rate :=
  Rate.Reset { cache := none, Suffix := "", Metrics := [], RateFields := [], BitRateFields := [] }

/-- The state cached for field `k` of the series with hash id `id`, if any. -/
def Rate.state (m : Rate) (id : Nat) (k : String) : Option last :=
  m.cache.bind fun c => (c.lookup id).bind fun a => a.fields.lookup k

/-- The name and the tags cached for the series with hash id `id`, if any. -/
def Rate.series (m : Rate) (id : Nat) : Option (String × StrMap String) :=
  (m.cache.bind fun c => c.lookup id).map fun a => (a.name, a.tags)

/-- The state of field `k` after one iteration of the loop of `Add` on the
pair `(k, v)`, as a function of its state before. -/
def Rate.step (ovf : F64 → Int) (m : Rate) (ts : Int) (k : String) (v : Value)
    (old : Option last) : Option last :=
  if m.IsBitRateField k || m.IsRateField k then
    match convert v with
    | some fv =>
      match old with
      | none => some { val := fv, timestamp := ts, rate := 0 }
      | some ld =>
        some { val := fv, timestamp := ts, rate := F64.toInt64 ovf (m.newRate ts k fv ld) }
    | none => old
  else old

/-- An operation the host pipeline performs on the engine. -/
inductive Op where
  | add (ts : Int) (inp : Metric) : Op
  | push : Op
  | reset : Op

/-- The engine after one operation (`Push` only reads it). -/
def Rate.apply (ovf : F64 → Int) (m : Rate) : Op → Option Rate
  | Op.add ts inp => m.Add ovf ts inp
  | Op.push => some m
  | Op.reset => some m.Reset

/-- The engine after a sequence of operations, `none` if one of them panics. -/
def Rate.run (ovf : F64 → Int) (m : Rate) : List Op → Option Rate
  | [] => some m
  | op :: rest => (m.apply ovf op).bind fun m1 => m1.run ovf rest

/-- An engine made by `NewRate` whose exported fields the host then fills
from the configuration file. -/
def configured (suffix : String) (metrics rateFields bitRateFields : List String) : Rate :=
  { NewRate with
    Suffix := suffix, Metrics := metrics, RateFields := rateFields,
    BitRateFields := bitRateFields }

/-! ## Example data -/

/-- The configuration of the sample file: metric `snmp`, bit-rate field `in`,
rate field `in_pkts`, suffix `_rate`. -/
def sampleEngine : Rate := configured "_rate" ["snmp"] ["in_pkts"] ["in"]

/-- A snapshot of the series 7 of `snmp` with the given fields. -/
def sampleMetric (fields : StrMap Value) : Metric :=
  { name := "snmp", tags := AList.singleton "if_name" "eth0", fields := fields, hashID := 7 }

/-- The sample engine with one cached series whose field `k` has state `ld`. -/
def sampleCached (k : String) (ld : last) : Rate :=
  { sampleEngine with
    cache := some (AList.singleton 7
      { fields := AList.singleton k ld, name := "snmp", tags := AList.singleton "if_name" "eth0" }) }

/-- The sample engine after it has seen `in = 1000` at second 0 and
`in = 1500` at second 5 on series 7: the rate of `in` is 800. -/
def sampleWarm : Rate := sampleCached "in" { val := F64.ofInt 1500, timestamp := 5, rate := 800 }

/-! ## Lemmas on float64 -/

namespace F64

/-- With enough fuel the halving loop finds the leading bit. -/
theorem log2Aux_spec (fuel n : Nat) (h0 : n ≠ 0) (hf : n ≤ fuel) :
    2 ^ log2Aux fuel n ≤ n ∧ n < 2 ^ (log2Aux fuel n + 1) := by
  induction fuel generalizing n with
  | zero => omega
  | succ fuel ih =>
    by_cases h2 : n < 2
    · have : n = 1 := by omega
      subst this
      simp [log2Aux]
    · have hd : n / 2 ≠ 0 := by omega
      have hle : n / 2 ≤ fuel := by omega
      obtain ⟨a, b⟩ := ih (n / 2) hd hle
      simp only [log2Aux, h2, if_false]
      rw [pow_succ, pow_succ]
      constructor <;> omega

/-- The leading bit: `2^(log2 n) ≤ n < 2^(log2 n + 1)` for `n > 0`. -/
theorem log2_spec (n : Nat) (h0 : n ≠ 0) : 2 ^ log2 n ≤ n ∧ n < 2 ^ (log2 n + 1) :=
  log2Aux_spec n n h0 (le_refl n)

/-- Every `pow2 k` is positive. -/
theorem pow2_pos (k : Int) : 0 < pow2 k := by
  unfold pow2
  positivity

/-- For `k ≤ 0`, `pow2 k` is 1. -/
theorem pow2_of_nonpos (k : Int) (h : k ≤ 0) : pow2 k = 1 := by
  simp [pow2, Int.toNat_eq_zero.mpr h]

/-- For a natural `n`, `pow2 n` is `2^n`. -/
theorem pow2_ofNat (n : Nat) : pow2 (n : Int) = 2 ^ n := by
  simp [pow2]

/-- In the rationals, `pow2 k / pow2 (-k)` is `2^k`. -/
theorem pow2_ratio (k : Int) : ((pow2 k : Nat) : ℚ) / ((pow2 (-k) : Nat) : ℚ) = (2 : ℚ) ^ k := by
  rcases Int.le_total 0 k with h | h
  · obtain ⟨n, rfl⟩ := Int.eq_ofNat_of_zero_le h
    rw [pow2_ofNat, pow2_of_nonpos _ (by omega)]
    simp
  · obtain ⟨n, hn⟩ := Int.eq_ofNat_of_zero_le (show 0 ≤ -k by omega)
    have hk : k = -(n : Int) := by omega
    subst hk
    rw [pow2_of_nonpos _ h, neg_neg, pow2_ofNat]
    simp [zpow_neg]

/-- The quotient lies below the upper end of its binade. -/
theorem binade_lt (num den : Nat) (hn : num ≠ 0) (hd : den ≠ 0) :
    (num : ℚ) / (den : ℚ) < (2 : ℚ) ^ (binade num den + 1) := by
  have hdq : (0 : ℚ) < (den : ℚ) := by exact_mod_cast Nat.pos_of_ne_zero hd
  obtain ⟨-, hnu⟩ := log2_spec num hn
  obtain ⟨hdl, -⟩ := log2_spec den hd
  unfold binade
  simp only []
  split
  · rename_i hc
    have hc2 : ((num : ℚ)) * (pow2 (-((log2 num : Int) - (log2 den : Int))) : ℚ) <
        (den : ℚ) * (pow2 ((log2 num : Int) - (log2 den : Int)) : ℚ) := by exact_mod_cast hc
    have hp : (0 : ℚ) < (pow2 (-((log2 num : Int) - (log2 den : Int))) : ℚ) := by
      exact_mod_cast pow2_pos _
    rw [sub_add_cancel, ← pow2_ratio, div_lt_div_iff₀ hdq hp, mul_comm (pow2 _ : ℚ)]
    exact hc2
  · have h1 : (num : ℚ) < (2 : ℚ) ^ (log2 num + 1) := by exact_mod_cast hnu
    have h2 : (2 : ℚ) ^ (log2 den) ≤ (den : ℚ) := by exact_mod_cast hdl
    have h3 : (2 : ℚ) ^ ((log2 num : Int) - (log2 den : Int) + 1) =
        (2 : ℚ) ^ (log2 num + 1) / (2 : ℚ) ^ (log2 den) := by
      rw [show (log2 num : Int) - (log2 den : Int) + 1 = ((log2 num + 1 : Nat) : Int) - ((log2 den : Nat) : Int) by push_cast; ring]
      rw [zpow_sub₀ (by norm_num : (2 : ℚ) ≠ 0), zpow_natCast, zpow_natCast]
    rw [h3, div_lt_div_iff₀ hdq (by positivity)]
    calc (num : ℚ) * (2 : ℚ) ^ (log2 den) < (2 : ℚ) ^ (log2 num + 1) * (2 : ℚ) ^ (log2 den) := by
          apply mul_lt_mul_of_pos_right h1 (by positivity)
      _ ≤ (2 : ℚ) ^ (log2 num + 1) * (den : ℚ) := by
          apply mul_le_mul_of_nonneg_left h2 (by positivity)

/-- Rounding to the nearest integer adds at most one to the quotient. -/
theorem rne_le (n dn : Nat) : rne n dn ≤ n / dn + 1 := by
  unfold rne
  simp only []
  split_ifs <;> omega

/-- Packing a significand of at most `2^53` gives one below `2^53`. -/
theorem pack_rounded (neg : Bool) (m : Nat) (e : Int) (h : m ≤ 2 ^ 53) : Rounded (pack neg m e) := by
  unfold pack
  simp only []
  by_cases hm : m = 2 ^ 53
  · simp only [hm, if_true]
    split
    · trivial
    · simp [Rounded]
  · simp only [hm, if_false]
    split
    · trivial
    · simp only [Rounded]
      omega

/-- The significand of a rounded value fits in 53 bits. -/
theorem round_rounded (neg : Bool) (num den : Nat) (hd : den ≠ 0) :
    Rounded (round neg num den) := by
  unfold round
  by_cases hn : num = 0
  · simp [hn, zero, Rounded]
  · simp only [hn, if_false]
    apply pack_rounded
    generalize he : max (binade num den) (-1022) - 52 = e
    have hb := binade_lt num den hn hd
    have hdq : (0 : ℚ) < (den : ℚ) := by exact_mod_cast Nat.pos_of_ne_zero hd
    have hpe : (0 : ℚ) < (pow2 e : ℚ) := by exact_mod_cast pow2_pos _
    have hpn : (0 : ℚ) < (pow2 (-e) : ℚ) := by exact_mod_cast pow2_pos _
    have hr := pow2_ratio e
    have hlt : ((num * pow2 (-e) : Nat) : ℚ) < ((2 ^ 53 * (den * pow2 e) : Nat) : ℚ) := by
      push_cast
      have h1 : (num : ℚ) < (2 : ℚ) ^ (binade num den + 1) * (den : ℚ) := by
        rwa [div_lt_iff₀ hdq] at hb
      have h2 : (2 : ℚ) ^ (binade num den + 1) ≤ (2 : ℚ) ^ (e + 53) := by
        apply zpow_le_zpow_right₀ (by norm_num)
        have := le_max_left (binade num den) (-1022)
        omega
      have h3 : (2 : ℚ) ^ (e + 53) = (pow2 e : ℚ) / (pow2 (-e) : ℚ) * 2 ^ 53 := by
        rw [hr, zpow_add₀ (by norm_num : (2 : ℚ) ≠ 0)]
        norm_num
      have h4 : (num : ℚ) < (pow2 e : ℚ) / (pow2 (-e) : ℚ) * 2 ^ 53 * (den : ℚ) := by
        calc (num : ℚ) < (2 : ℚ) ^ (binade num den + 1) * (den : ℚ) := h1
          _ ≤ (2 : ℚ) ^ (e + 53) * (den : ℚ) := by
              apply mul_le_mul_of_nonneg_right h2 (le_of_lt hdq)
          _ = _ := by rw [h3]
      have h5 : (pow2 e : ℚ) / (pow2 (-e) : ℚ) * 2 ^ 53 * (den : ℚ) =
          (2 ^ 53 * ((den : ℚ) * (pow2 e : ℚ))) / (pow2 (-e) : ℚ) := by
        field_simp
        ring
      rw [h5, lt_div_iff₀ hpn] at h4
      exact h4
    have hlt2 : num * pow2 (-e) < 2 ^ 53 * (den * pow2 e) := by exact_mod_cast hlt
    have hq : num * pow2 (-e) / (den * pow2 e) < 2 ^ 53 := by
      apply Nat.div_lt_of_lt_mul
      rw [Nat.mul_comm (den * pow2 e)]
      exact hlt2
    have := rne_le (num * pow2 (-e)) (den * pow2 e)
    omega

/-- Rounding an exact quotient gives that quotient. -/
theorem rne_exact (q dn : Nat) (hd : 0 < dn) : rne (q * dn) dn = q := by
  unfold rne
  simp [Nat.mul_mod_left, Nat.mul_div_cancel _ hd, hd]

/-- Packing a significand below `2^53` with an exponent in range keeps both. -/
theorem pack_fin (neg : Bool) (m : Nat) (e : Int) (hm : m < 2 ^ 53) (he : e ≤ 971) :
    pack neg m e = fin neg m e := by
  have h1 : ¬ m = 2 ^ 53 := by omega
  have h2 : ¬ 971 < e := by omega
  simp only [pack, if_neg h1, if_neg h2]

/-- The binade of a natural number is the position of its leading bit. -/
theorem binade_nat (t : Nat) (ht : t ≠ 0) : binade t 1 = (log2 t : Int) := by
  obtain ⟨h1, -⟩ := log2_spec t ht
  have h0 : log2 1 = 0 := by decide
  unfold binade
  simp only [h0, Nat.cast_zero, sub_zero]
  rw [pow2_of_nonpos _ (by omega), pow2_ofNat]
  have : ¬ t * 1 < 1 * 2 ^ log2 t := by omega
  rw [if_neg this]

/-- Rounding a natural number that has at most 53 significant bits is exact. -/
theorem round_nat (neg : Bool) (t : Nat) (ht : t ≠ 0)
    (hrep : ∃ m s : Nat, m < 2 ^ 53 ∧ t = m * 2 ^ s) (hbig : t < 2 ^ 64) :
    ∃ M E, round neg t 1 = fin neg M E ∧ M * pow2 E / pow2 (-E) = t := by
  obtain ⟨hlo, hhi⟩ := log2_spec t ht
  have hL : log2 t < 64 := by
    by_contra hcon
    have : 2 ^ 64 ≤ 2 ^ log2 t := Nat.pow_le_pow_right (by decide) (by omega)
    omega
  unfold round
  simp only [ht, if_false, binade_nat t ht]
  rw [max_eq_left (by omega : (-1022 : Int) ≤ (log2 t : Int))]
  by_cases hc : log2 t ≤ 52
  · have e1 : pow2 ((log2 t : Int) - 52) = 1 := pow2_of_nonpos _ (by omega)
    have e2 : pow2 (-((log2 t : Int) - 52)) = 2 ^ (52 - log2 t) := by
      rw [show -((log2 t : Int) - 52) = ((52 - log2 t : Nat) : Int) by omega, pow2_ofNat]
    have hlt : t * 2 ^ (52 - log2 t) < 2 ^ 53 := by
      calc t * 2 ^ (52 - log2 t) < 2 ^ (log2 t + 1) * 2 ^ (52 - log2 t) :=
            Nat.mul_lt_mul_of_pos_right hhi (by positivity)
        _ = 2 ^ 53 := by rw [← pow_add]; congr 1; omega
    rw [e1, e2]
    have hr : rne (t * 2 ^ (52 - log2 t)) (1 * 1) = t * 2 ^ (52 - log2 t) := by
      have := rne_exact (t * 2 ^ (52 - log2 t)) 1 (by decide)
      simpa using this
    rw [hr, pack_fin neg _ _ hlt (by omega)]
    refine ⟨_, _, rfl, ?_⟩
    rw [e1, e2, Nat.mul_one]
    exact Nat.mul_div_cancel _ (by positivity)
  · have e1 : pow2 ((log2 t : Int) - 52) = 2 ^ (log2 t - 52) := by
      rw [show (log2 t : Int) - 52 = ((log2 t - 52 : Nat) : Int) by omega, pow2_ofNat]
    have e2 : pow2 (-((log2 t : Int) - 52)) = 1 := pow2_of_nonpos _ (by omega)
    obtain ⟨m, s, hm, hts⟩ := hrep
    have hs : log2 t - 52 ≤ s := by
      by_contra hcon
      have h1 : s + 53 ≤ log2 t := by omega
      have h2 : m * 2 ^ s < 2 ^ 53 * 2 ^ s := Nat.mul_lt_mul_of_pos_right hm (by positivity)
      have h3 : 2 ^ 53 * 2 ^ s ≤ 2 ^ log2 t := by
        rw [← pow_add]
        exact Nat.pow_le_pow_right (by decide) (by omega)
      omega
    have hdvd : 2 ^ (log2 t - 52) ∣ t := by
      have h1 : 2 ^ (log2 t - 52) ∣ m * 2 ^ s := Dvd.dvd.mul_left (Nat.pow_dvd_pow 2 hs) m
      rwa [← hts] at h1
    obtain ⟨q, hq⟩ := hdvd
    have hq2 : t = q * 2 ^ (log2 t - 52) := by
      rw [Nat.mul_comm]
      exact hq
    have hqlt : q < 2 ^ 53 := by
      by_contra hcon
      have h1 : 2 ^ 53 * 2 ^ (log2 t - 52) ≤ q * 2 ^ (log2 t - 52) :=
        Nat.mul_le_mul_right _ (by omega)
      have h2 : 2 ^ 53 * 2 ^ (log2 t - 52) = 2 ^ (log2 t + 1) := by
        rw [← pow_add]; congr 1; omega
      omega
    rw [e1, e2, Nat.mul_one, Nat.one_mul]
    have hr : rne t (2 ^ (log2 t - 52)) = q := by
      have h1 := rne_exact q (2 ^ (log2 t - 52)) (by positivity)
      rwa [← hq2] at h1
    rw [hr, pack_fin neg _ _ hqlt (by omega)]
    refine ⟨_, _, rfl, ?_⟩
    rw [e1, e2, Nat.div_one]
    exact hq2.symm

/-- An integer is its magnitude with its sign. -/
theorem signed_natAbs (v : Int) : signed (decide (v < 0)) v.natAbs = v := by
  unfold signed
  by_cases h : v < 0
  · simp only [h, decide_True, if_true]
    omega
  · simp only [h, decide_False]
    simp only [Bool.false_eq_true, if_false]
    omega

/-- The magnitude of a signed natural number. -/
theorem natAbs_signed (neg : Bool) (t : Nat) : (signed neg t).natAbs = t := by
  unfold signed
  cases neg <;> simp

/-- An `int64` with at most 53 significant bits survives the round trip. -/
theorem stable_of_rep (ovf : F64 → Int) (v : Int) (hr : -2 ^ 63 ≤ v ∧ v < 2 ^ 63)
    (hrep : ∃ m s : Nat, m < 2 ^ 53 ∧ v.natAbs = m * 2 ^ s) : Stable ovf v := by
  unfold Stable ofInt
  by_cases h0 : v.natAbs = 0
  · have hv : v = 0 := Int.natAbs_eq_zero.mp h0
    subst hv
    simp [round, zero, toInt64, signed]
  · have hbig : v.natAbs < 2 ^ 64 := by omega
    obtain ⟨M, E, h1, h2⟩ := round_nat (decide (v < 0)) v.natAbs h0 hrep hbig
    rw [h1]
    simp only [toInt64, h2, signed_natAbs]
    rw [if_pos hr]

/-- The `int64` conversion of a rounded value survives the round trip, when
the results of out-of-range conversions do. -/
theorem stable_toInt64 (ovf : F64 → Int) (hovf : ∀ y, Stable ovf (ovf y)) (x : F64)
    (hx : Rounded x) : Stable ovf (toInt64 ovf x) := by
  cases x with
  | nan => exact hovf _
  | inf neg => exact hovf _
  | fin neg m e =>
    simp only [Rounded] at hx
    simp only [toInt64]
    split
    · rename_i hr
      apply stable_of_rep ovf _ hr
      rw [natAbs_signed]
      rcases Int.le_total 0 e with he | he
      · refine ⟨m, e.toNat, hx, ?_⟩
        rw [pow2_of_nonpos (-e) (by omega), Nat.div_one]
        rfl
      · refine ⟨m * pow2 e / pow2 (-e), 0, ?_, by simp⟩
        rw [pow2_of_nonpos _ he, Nat.mul_one]
        exact lt_of_le_of_lt (Nat.div_le_self _ _) hx
    · exact hovf _

/-- The conversion `int64(x)` is the integer part of `x` when that fits in 64 bits,
whatever the platform. -/
theorem toInt64_of_trunc (ovf : F64 → Int) (x : F64) (t : Int) (h : trunc x = some t)
    (h1 : -2 ^ 63 ≤ t) (h2 : t < 2 ^ 63) : toInt64 ovf x = t := by
  cases x with
  | nan => simp [trunc] at h
  | inf neg => simp [trunc] at h
  | fin neg m e =>
    simp only [trunc, Option.some.injEq] at h
    simp only [toInt64, h]
    rw [if_pos ⟨h1, h2⟩]

/-- Every quotient is a rounded value. -/
theorem div_rounded (a b : F64) : Rounded (a / b) := by
  show Rounded (div a b)
  cases a <;> cases b <;> simp only [div] <;> try trivial
  · simp [zero, Rounded]
  · rename_i na ma ea nb mb eb
    by_cases hmb : mb = 0
    · simp only [hmb, if_true]
      split <;> trivial
    · simp only [hmb, if_false]
      apply round_rounded
      have h1 := pow2_pos eb
      have h2 := pow2_pos (-ea)
      positivity

/-- Every product is a rounded value. -/
theorem mul_rounded (a b : F64) : Rounded (a * b) := by
  show Rounded (mul a b)
  cases a <;> cases b <;> simp only [mul] <;> try trivial
  · split <;> trivial
  · split <;> trivial
  · rename_i na ma ea nb mb eb
    apply round_rounded
    have h1 := pow2_pos (-eb)
    have h2 := pow2_pos (-ea)
    positivity

/-- Zero survives the round trip. -/
theorem stable_zero (ovf : F64 → Int) : Stable ovf 0 :=
  stable_of_rep ovf 0 (by decide) ⟨0, 0, by decide, by decide⟩

/-- The amd64 result of an out-of-range conversion survives the round trip. -/
theorem stable_amd64 (y : F64) : Stable amd64 (amd64 y) := by
  unfold Stable amd64
  decide!

/-- The saturated results of an out-of-range conversion survive the round trip. -/
theorem stable_saturating (y : F64) : Stable saturating (saturating y) := by
  unfold Stable
  cases y with
  | nan => decide!
  | inf neg => cases neg <;> decide!
  | fin neg m e => cases neg <;> simp only [saturating] <;> decide!

/-- The comparison `x < y` excludes `x >= y`. -/
theorem lt_not_ge (a b : F64) (h : lt a b = true) : ge a b = false := by
  cases a <;> cases b <;> simp only [lt, ge] at h ⊢ <;> try contradiction
  · rename_i na nb
    cases na <;> cases nb <;> simp_all
  · simp_all
  · simp_all
  · rename_i na ma ea nb mb eb
    have h2 := of_decide_eq_true h
    exact decide_eq_false (not_le.mpr h2)

end F64

/-! ## Lemmas on the helpers -/

/-- An integer of the range of `int64` is not changed by the reduction. -/
theorem wrap64_of_range (i : Int) (h1 : -2 ^ 63 ≤ i) (h2 : i < 2 ^ 63) : wrap64 i = i := by
  unfold wrap64
  omega

/-- The reduction lands in the range of `int64`. -/
theorem wrap64_range (i : Int) : -2 ^ 63 ≤ wrap64 i ∧ wrap64 i < 2 ^ 63 := by
  unfold wrap64
  omega

theorem scan_iff (obj : String) (l : List String) : scan obj l = true ↔ obj ∈ l := by
  induction l with
  | nil => simp [scan]
  | cons x rest ih =>
    by_cases h : x = obj
    · simp [scan, h]
    · have h2 : ¬ obj = x := fun e => h e.symm
      simp [scan, h, h2, ih]

/-- A loop over the entries of a map whose body only touches the entry of
the key it is given: the entry of `k` afterwards. -/
theorem foldl_lookup {α β : Type} (f : StrMap α → String → β → StrMap α)
    (g : String → β → Option α → Option α)
    (hself : ∀ fs k v, (f fs k v).lookup k = g k v (fs.lookup k))
    (hne : ∀ fs k v j, j ≠ k → (f fs k v).lookup j = fs.lookup j)
    (l : List (Sigma fun _ : String => β)) (hl : l.NodupKeys) (fs : StrMap α) (k : String) :
    (l.foldl (fun fs kv => f fs kv.1 kv.2) fs).lookup k =
      match l.dlookup k with
      | none => fs.lookup k
      | some v => g k v (fs.lookup k) := by
  induction l generalizing fs with
  | nil => simp
  | cons kv rest ih =>
    obtain ⟨k0, v0⟩ := kv
    have hnd := List.nodupKeys_of_nodupKeys_cons hl
    have hnot := List.not_mem_keys_of_nodupKeys_cons hl
    simp only [List.foldl_cons]
    rw [ih hnd]
    by_cases hk : k = k0
    · subst hk
      have : rest.dlookup k = none := List.dlookup_eq_none.mpr hnot
      simp [this, hself]
    · rw [List.dlookup_cons_ne _ _ hk, hne _ _ _ _ hk]

/-- The loop body of `Add` on a cached series, on the field it is given. -/
theorem updateField_lookup_self (ovf : F64 → Int) (m : Rate) (ts : Int) (fs : StrMap last)
    (k : String) (v : Value) :
    (m.updateField ovf ts fs k v).lookup k = m.step ovf ts k v (fs.lookup k) := by
  unfold Rate.updateField Rate.step
  split
  · cases hcv : convert v with
    | none => simp
    | some fv =>
      cases hold : fs.lookup k with
      | none => simp [AList.lookup_insert]
      | some ld => simp [AList.lookup_insert]
  · rfl

/-- The loop body of `Add` on a cached series leaves the other fields alone. -/
theorem updateField_lookup_ne (ovf : F64 → Int) (m : Rate) (ts : Int) (fs : StrMap last)
    (k : String) (v : Value) (j : String) (h : j ≠ k) :
    (m.updateField ovf ts fs k v).lookup j = fs.lookup j := by
  unfold Rate.updateField
  split
  · cases hcv : convert v with
    | none => simp
    | some fv =>
      cases hold : fs.lookup k with
      | none => simp [AList.lookup_insert_ne h]
      | some ld => simp [AList.lookup_insert_ne h]
  · rfl

/-- The loop body of `Add` on a new series, on the field it is given. -/
theorem initField_lookup_self (m : Rate) (ts : Int) (fs : StrMap last) (k : String) (v : Value) :
    (m.initField ts fs k v).lookup k =
      if m.IsBitRateField k || m.IsRateField k then
        match convert v with
        | some fv => some { val := fv, timestamp := ts, rate := 0 }
        | none => fs.lookup k
      else fs.lookup k := by
  unfold Rate.initField
  split
  · cases hcv : convert v with
    | none => simp
    | some fv => simp [AList.lookup_insert]
  · rfl

/-- The loop body of `Add` on a new series leaves the other fields alone. -/
theorem initField_lookup_ne (m : Rate) (ts : Int) (fs : StrMap last) (k : String) (v : Value)
    (j : String) (h : j ≠ k) : (m.initField ts fs k v).lookup j = fs.lookup j := by
  unfold Rate.initField
  split
  · cases hcv : convert v with
    | none => simp
    | some fv => simp [AList.lookup_insert_ne h]
  · rfl

/-- What `Add` does to the cache of an engine whose cache is allocated, for an
eligible metric: other series are untouched, the series keeps its name and
tags if it was cached and takes the metric's otherwise, and every field goes
through `Rate.step` once if the metric carries it. -/
theorem Add_spec (ovf : F64 → Int) (m : Rate) (ts : Int) (inp : Metric)
    (c : AList (fun _ : Nat => aggregate)) (hc : m.cache = some c)
    (hm : m.IsRateMetric inp.name = true) :
    ∃ c1 a1, m.Add ovf ts inp = some { m with cache := some c1 } ∧
      (∀ id, id ≠ inp.hashID → c1.lookup id = c.lookup id) ∧
      c1.lookup inp.hashID = some a1 ∧
      a1.name = ((c.lookup inp.hashID).map aggregate.name).getD inp.name ∧
      a1.tags = ((c.lookup inp.hashID).map aggregate.tags).getD inp.tags ∧
      ∀ k, a1.fields.lookup k =
        match inp.fields.lookup k with
        | none => m.state inp.hashID k
        | some v => m.step ovf ts k v (m.state inp.hashID k) := by
  cases hlk : c.lookup inp.hashID with
  | none =>
    refine ⟨c.insert inp.hashID
        { name := inp.name
          tags := inp.tags
          fields := inp.fields.entries.foldl (fun fs kv => m.initField ts fs kv.1 kv.2) ∅ },
      _, ?_, ?_, AList.lookup_insert _, ?_, ?_, ?_⟩
    · simp only [Rate.Add, hm, hc, hlk]
      rfl
    · intro id hid
      exact AList.lookup_insert_ne hid
    · simp
    · simp
    · intro k
      have h := foldl_lookup (fun fs k v => m.initField ts fs k v)
        (fun k v old =>
          if m.IsBitRateField k || m.IsRateField k then
            match convert v with
            | some fv => some { val := fv, timestamp := ts, rate := 0 }
            | none => old
          else old)
        (initField_lookup_self m ts) (initField_lookup_ne m ts)
        inp.fields.entries inp.fields.nodupKeys ∅ k
      simp only [Rate.state, hc, hlk, Option.bind]
      simp only [AList.lookup] at h ⊢
      rw [h]
      cases hv : List.dlookup k inp.fields.entries with
      | none => simp
      | some v =>
        simp only [Rate.step]
        split
        · cases convert v <;> simp
        · simp
  | some a =>
    refine ⟨c.insert inp.hashID
        { a with
          fields :=
            inp.fields.entries.foldl (fun fs kv => m.updateField ovf ts fs kv.1 kv.2) a.fields },
      _, ?_, ?_, AList.lookup_insert _, ?_, ?_, ?_⟩
    · simp only [Rate.Add, hm, hc, hlk]
      rfl
    · intro id hid
      exact AList.lookup_insert_ne hid
    · simp
    · simp
    · intro k
      have h := foldl_lookup (fun fs k v => m.updateField ovf ts fs k v)
        (fun k v old => m.step ovf ts k v old)
        (updateField_lookup_self ovf m ts) (updateField_lookup_ne ovf m ts)
        inp.fields.entries inp.fields.nodupKeys a.fields k
      simp only [Rate.state, hc, hlk, Option.bind]
      simp only [AList.lookup] at h ⊢
      rw [h]
      cases List.dlookup k inp.fields.entries <;> rfl

/-- The effect of `Add` on an allocated cache and an eligible metric, read through
`Rate.state`: the configuration is kept, the cache stays allocated, the
states of other series are kept, and each field of the series goes through
`Rate.step` once if the metric carries it. -/
theorem Add_state (ovf : F64 → Int) (m : Rate) (ts : Int) (inp : Metric)
    (c : AList (fun _ : Nat => aggregate)) (hc : m.cache = some c)
    (hm : inp.name ∈ m.Metrics) :
    ∃ m1 c1, m.Add ovf ts inp = some m1 ∧ m1.cache = some c1 ∧
      m1.Suffix = m.Suffix ∧ m1.Metrics = m.Metrics ∧
      m1.RateFields = m.RateFields ∧ m1.BitRateFields = m.BitRateFields ∧
      (∀ id, id ≠ inp.hashID → c1.lookup id = c.lookup id) ∧
      ∀ k, m1.state inp.hashID k =
        match inp.fields.lookup k with
        | none => m.state inp.hashID k
        | some v => m.step ovf ts k v (m.state inp.hashID k) := by
  obtain ⟨c1, a1, h1, h2, h3, -, -, h6⟩ :=
    Add_spec ovf m ts inp c hc ((scan_iff _ _).mpr hm)
  refine ⟨_, c1, h1, rfl, rfl, rfl, rfl, rfl, h2, fun k => ?_⟩
  rw [← h6 k]
  simp [Rate.state, h3]

/-- The state `Rate.step` leaves for a configured field with a numeric
value: the value and the clock reading are stored on every branch. -/
theorem step_numeric (ovf : F64 → Int) (m : Rate) (ts : Int) (k : String) (v : Value) (fv : F64)
    (old : Option last) (hk : k ∈ m.RateFields ∨ k ∈ m.BitRateFields)
    (hfv : convert v = some fv) :
    m.step ovf ts k v old =
      some { val := fv, timestamp := ts,
             rate := match old with
               | none => 0
               | some ld => F64.toInt64 ovf (m.newRate ts k fv ld) } := by
  have hq : (m.IsBitRateField k || m.IsRateField k) = true := by
    rcases hk with h | h
    · simp [Rate.IsRateField, (scan_iff k m.RateFields).mpr h]
    · simp [Rate.IsBitRateField, (scan_iff k m.BitRateFields).mpr h]
  cases old <;> simp [Rate.step, hq, hfv]

/-- The rate recomputed when at least two seconds have elapsed, the `int64`
difference of the clock readings has not overflowed and the value has not
decreased. -/
theorem newRate_recompute (m : Rate) (ts : Int) (k : String) (fv : F64) (ld : last)
    (hel : 2 ≤ ts - ld.timestamp) (hfit : ts - ld.timestamp < 2 ^ 63)
    (hge : F64.ge fv ld.val = true) :
    m.newRate ts k fv ld =
      if k ∈ m.BitRateFields then (fv - ld.val) / F64.ofInt (ts - ld.timestamp) * F64.ofInt 8
      else (fv - ld.val) / F64.ofInt (ts - ld.timestamp) := by
  have hw : wrap64 (ts - ld.timestamp) = ts - ld.timestamp :=
    wrap64_of_range _ (le_trans (by decide) hel) hfit
  have hnot : ¬ ts - ld.timestamp < 2 := not_lt.mpr hel
  by_cases hb : k ∈ m.BitRateFields
  · simp [Rate.newRate, hw, hnot, hge, Rate.IsBitRateField, (scan_iff _ _).mpr hb, hb]
  · have hb2 : scan k m.BitRateFields = false := by
      cases h : scan k m.BitRateFields with
      | false => rfl
      | true => exact absurd ((scan_iff _ _).mp h) hb
    simp [Rate.newRate, hw, hnot, hge, Rate.IsBitRateField, hb2, hb]

/-- The rate carried forward when the period is below two seconds or the
value has decreased. -/
theorem newRate_carry (m : Rate) (ts : Int) (k : String) (fv : F64) (ld : last)
    (h : wrap64 (ts - ld.timestamp) < 2 ∨ F64.ge fv ld.val = false) :
    m.newRate ts k fv ld = F64.ofInt ld.rate := by
  rcases h with h | h
  · simp [Rate.newRate, h]
  · simp [Rate.newRate, h]

/-- The function `Rate.step` either keeps the state of a field or the field is configured. -/
theorem step_cases (ovf : F64 → Int) (m : Rate) (ts : Int) (k : String) (v : Value)
    (old : Option last) :
    m.step ovf ts k v old = old ∨ (k ∈ m.RateFields ∨ k ∈ m.BitRateFields) := by
  by_cases hb : m.IsBitRateField k = true
  · exact Or.inr (Or.inr ((scan_iff _ _).mp hb))
  · by_cases hr : m.IsRateField k = true
    · exact Or.inr (Or.inl ((scan_iff _ _).mp hr))
    · left
      simp [Rate.step, hb, hr]

/-- The function `Rate.step` keeps the state of a field whose value is not numeric. -/
theorem step_nonnumeric (ovf : F64 → Int) (m : Rate) (ts : Int) (k : String) (v : Value)
    (old : Option last) (h : convert v = none) : m.step ovf ts k v old = old := by
  simp only [Rate.step, h]
  split <;> rfl

/-! ## Sequences of operations -/

/-- The method `Add` returns the engine itself for a metric that is not eligible. -/
theorem Add_ineligible (ovf : F64 → Int) (m : Rate) (ts : Int) (inp : Metric)
    (h : inp.name ∉ m.Metrics) : m.Add ovf ts inp = some m := by
  have hs : m.IsRateMetric inp.name = false := by
    cases hb : m.IsRateMetric inp.name with
    | false => rfl
    | true => exact absurd ((scan_iff _ _).mp hb) h
  simp [Rate.Add, hs]

/-- One operation on an engine whose cache is allocated succeeds, keeps the
cache allocated and keeps the configuration. -/
theorem apply_ok (ovf : F64 → Int) (m : Rate) (op : Op) (c : AList (fun _ : Nat => aggregate))
    (hc : m.cache = some c) :
    ∃ m1 c1, m.apply ovf op = some m1 ∧ m1.cache = some c1 ∧
      m1.Suffix = m.Suffix ∧ m1.Metrics = m.Metrics ∧
      m1.RateFields = m.RateFields ∧ m1.BitRateFields = m.BitRateFields := by
  cases op with
  | add ts inp =>
    by_cases hm : inp.name ∈ m.Metrics
    · obtain ⟨m1, c1, h1, h2, h3, h4, h5, h6, -, -⟩ := Add_state ovf m ts inp c hc hm
      exact ⟨m1, c1, h1, h2, h3, h4, h5, h6⟩
    · exact ⟨m, c, Add_ineligible ovf m ts inp hm, hc, rfl, rfl, rfl, rfl⟩
  | push => exact ⟨m, c, rfl, hc, rfl, rfl, rfl, rfl⟩
  | reset =>
    refine ⟨m, c, ?_, hc, rfl, rfl, rfl, rfl⟩
    simp [Rate.apply, Rate.Reset, hc]

/-- A property that holds of the starting engine and that every operation of
the sequence preserves on engines with an allocated cache holds after the
sequence, and the sequence does not panic.  `R` is what is known of each
operation of the sequence. -/
theorem run_invariant (ovf : F64 → Int) (P : Rate → Prop) (R : Op → Prop)
    (hstep : ∀ m op m1, R op → (∃ c, m.cache = some c) → P m → m.apply ovf op = some m1 → P m1)
    (ops : List Op) (hR : ∀ op ∈ ops, R op)
    (m : Rate) (c : AList (fun _ : Nat => aggregate)) (hc : m.cache = some c)
    (hP : P m) :
    ∃ m1 c1, m.run ovf ops = some m1 ∧ m1.cache = some c1 ∧
      m1.Suffix = m.Suffix ∧ m1.Metrics = m.Metrics ∧
      m1.RateFields = m.RateFields ∧ m1.BitRateFields = m.BitRateFields ∧ P m1 := by
  induction ops generalizing m c with
  | nil => exact ⟨m, c, rfl, hc, rfl, rfl, rfl, rfl, hP⟩
  | cons op rest ih =>
    obtain ⟨m1, c1, h1, h2, e1, e2, e3, e4⟩ := apply_ok ovf m op c hc
    obtain ⟨m2, c2, g1, g2, f1, f2, f3, f4, g3⟩ :=
      ih (fun o ho => hR o (List.mem_cons_of_mem _ ho)) m1 c1 h2
        (hstep m op m1 (hR op (List.mem_cons_self _ _)) ⟨c, hc⟩ hP h1)
    refine ⟨m2, c2, ?_, g2, f1.trans e1, f2.trans e2, f3.trans e3, f4.trans e4, g3⟩
    simp [Rate.run, h1, g1]

/-- The state of a field after one operation on an engine with an allocated
cache: the state before, or the result of `Rate.step` on the state before. -/
theorem apply_state (ovf : F64 → Int) (m : Rate) (op : Op) (m1 : Rate)
    (hc : ∃ c, m.cache = some c) (h : m.apply ovf op = some m1) (id : Nat) (k : String) :
    m1.state id k = m.state id k ∨
      ∃ ts inp v, op = Op.add ts inp ∧ inp.name ∈ m.Metrics ∧ id = inp.hashID ∧
        inp.fields.lookup k = some v ∧ m1.state id k = m.step ovf ts k v (m.state id k) := by
  obtain ⟨c, hc⟩ := hc
  cases op with
  | push =>
    simp only [Rate.apply, Option.some.injEq] at h
    exact Or.inl (h ▸ rfl)
  | reset =>
    simp only [Rate.apply, Rate.Reset, hc, Option.some.injEq] at h
    exact Or.inl (h ▸ rfl)
  | add ts inp =>
    by_cases hm : inp.name ∈ m.Metrics
    · obtain ⟨m2, c2, h1, h2, -, -, -, -, h7, h8⟩ := Add_state ovf m ts inp c hc hm
      simp only [Rate.apply, h1, Option.some.injEq] at h
      subst h
      by_cases hid : id = inp.hashID
      · subst hid
        cases hv : inp.fields.lookup k with
        | none =>
          left
          rw [h8 k, hv]
        | some v =>
          right
          refine ⟨ts, inp, v, rfl, hm, rfl, hv, ?_⟩
          rw [h8 k, hv]
      · left
        simp [Rate.state, h2, hc, h7 id hid]
    · have h1 := Add_ineligible ovf m ts inp hm
      simp only [Rate.apply, h1, Option.some.injEq] at h
      exact Or.inl (h ▸ rfl)

/-- The rate `Add` stores for a field that has a state survives the
conversion to `float64` and back as soon as the previous rate does. -/
theorem newRate_stable (ovf : F64 → Int) (hovf : ∀ y, F64.Stable ovf (ovf y)) (m : Rate)
    (ts : Int) (k : String) (fv : F64) (ld : last) (h : F64.Stable ovf ld.rate) :
    F64.Stable ovf (F64.toInt64 ovf (m.newRate ts k fv ld)) := by
  unfold Rate.newRate
  simp only []
  split
  · rw [h]; exact h
  · split
    · split
      · exact F64.stable_toInt64 ovf hovf _ (F64.mul_rounded _ _)
      · exact F64.stable_toInt64 ovf hovf _ (F64.div_rounded _ _)
    · rw [h]; exact h

/-- The function `Rate.step` keeps the rates stable. -/
theorem step_stable (ovf : F64 → Int) (hovf : ∀ y, F64.Stable ovf (ovf y)) (m : Rate)
    (ts : Int) (k : String) (v : Value) (old : Option last)
    (hold : ∀ ld, old = some ld → F64.Stable ovf ld.rate) (st : last)
    (h : m.step ovf ts k v old = some st) : F64.Stable ovf st.rate := by
  unfold Rate.step at h
  split at h
  · cases hcv : convert v with
    | none =>
      rw [hcv] at h
      exact hold st h
    | some fv =>
      rw [hcv] at h
      cases old with
      | none =>
        simp only [Option.some.injEq] at h
        rw [← h]
        exact F64.stable_zero ovf
      | some ld =>
        simp only [Option.some.injEq] at h
        rw [← h]
        exact newRate_stable ovf hovf m ts k fv ld (hold ld rfl)
  · exact hold st h

/-- Every rate held by an engine that started with an empty cache survives
the conversion to `float64` and back: it is 0, or the truncation of a
`float64`, or the value the platform gives to an out-of-range conversion. -/
theorem run_stable (ovf : F64 → Int) (hovf : ∀ y, F64.Stable ovf (ovf y)) (m0 : Rate)
    (h0 : m0.cache = some ∅) (ops : List Op) (m : Rate) (hrun : m0.run ovf ops = some m) :
    m.Metrics = m0.Metrics ∧ m.RateFields = m0.RateFields ∧
      m.BitRateFields = m0.BitRateFields ∧
      ∀ id k st, m.state id k = some st → F64.Stable ovf st.rate := by
  obtain ⟨m1, c1, h1, -, -, e2, e3, e4, hP⟩ :=
    run_invariant ovf (fun x => ∀ id k st, x.state id k = some st → F64.Stable ovf st.rate)
      (fun _ => True)
      (by
        intro x op x1 _ hc hP h id k st hst
        rcases apply_state ovf x op x1 hc h id k with h3 | ⟨ts, inp, v, -, -, -, -, h3⟩
        · exact hP id k st (h3 ▸ hst)
        · rw [h3] at hst
          exact step_stable ovf hovf x ts k v _ (fun ld hld => hP id k ld hld) st hst)
      ops (fun _ _ => trivial) m0 ∅ h0
      (by
        intro id k st hst
        simp [Rate.state, h0] at hst)
  rw [hrun] at h1
  simp only [Option.some.injEq] at h1
  subst h1
  exact ⟨e2, e3, e4, hP⟩

/-! ## Rendering -/

/-- Appending a fixed suffix is injective. -/
theorem append_suffix_injective (s : String) : Function.Injective fun k : String => k ++ s := by
  intro a b h
  have h2 : (a ++ s).data = (b ++ s).data := congrArg String.data h
  rw [String.data_append, String.data_append] at h2
  exact String.ext (List.append_cancel_right h2)

/-- Keys of a map filled by a loop of insertions. -/
theorem foldl_insert_mem {β γ : Type} (f : String → String) (g : β → γ)
    (l : List (Sigma fun _ : String => β)) (init : StrMap γ) (j : String) :
    j ∈ l.foldl (fun out kv => out.insert (f kv.1) (g kv.2)) init ↔
      j ∈ init ∨ ∃ kv ∈ l, j = f kv.1 := by
  induction l generalizing init with
  | nil => simp
  | cons kv rest ih =>
    simp only [List.foldl_cons]
    rw [ih, AList.mem_insert]
    constructor
    · rintro ((h | h) | ⟨x, hx, h⟩)
      · exact Or.inr ⟨kv, List.mem_cons_self _ _, h⟩
      · exact Or.inl h
      · exact Or.inr ⟨x, List.mem_cons_of_mem _ hx, h⟩
    · rintro (h | ⟨x, hx, h⟩)
      · exact Or.inl (Or.inr h)
      · rcases List.mem_cons.mp hx with rfl | hx
        · exact Or.inl (Or.inl h)
        · exact Or.inr ⟨x, hx, h⟩

/-- Entry of an image key in a map filled by a loop of insertions under an
injective renaming of the keys. -/
theorem foldl_insert_lookup {β γ : Type} (f : String → String) (hf : Function.Injective f)
    (g : β → γ) (l : List (Sigma fun _ : String => β)) (hl : l.NodupKeys) (init : StrMap γ)
    (k : String) :
    (l.foldl (fun out kv => out.insert (f kv.1) (g kv.2)) init).lookup (f k) =
      match l.dlookup k with
      | some v => some (g v)
      | none => init.lookup (f k) := by
  induction l generalizing init with
  | nil => simp
  | cons kv rest ih =>
    obtain ⟨k0, v0⟩ := kv
    have hnd := List.nodupKeys_of_nodupKeys_cons hl
    have hnot := List.not_mem_keys_of_nodupKeys_cons hl
    simp only [List.foldl_cons]
    rw [ih hnd]
    by_cases hk : k = k0
    · subst hk
      have : rest.dlookup k = none := List.dlookup_eq_none.mpr hnot
      simp [this, AList.lookup_insert]
    · have hfk : f k ≠ f k0 := fun e => hk (hf e)
      rw [List.dlookup_cons_ne _ _ hk, AList.lookup_insert_ne hfk]

/-- Size of a map filled by a loop of insertions of fresh, distinct keys. -/
theorem foldl_insert_length {β γ : Type} (f : String → String) (hf : Function.Injective f)
    (g : β → γ) (l : List (Sigma fun _ : String => β)) (hl : l.NodupKeys) (init : StrMap γ)
    (hinit : ∀ kv ∈ l, f kv.1 ∉ init) :
    (l.foldl (fun out kv => out.insert (f kv.1) (g kv.2)) init).entries.length =
      init.entries.length + l.length := by
  induction l generalizing init with
  | nil => simp
  | cons kv rest ih =>
    obtain ⟨k0, v0⟩ := kv
    have hnd := List.nodupKeys_of_nodupKeys_cons hl
    have hnot := List.not_mem_keys_of_nodupKeys_cons hl
    simp only [List.foldl_cons]
    rw [ih hnd]
    · rw [AList.insert_entries_of_neg (hinit ⟨k0, v0⟩ (List.mem_cons_self _ _))]
      simp only [List.length_cons]
      omega
    · intro kv hkv hmem
      rcases (AList.mem_insert init).mp hmem with h | h
      · have e : kv.1 = k0 := hf h
        have hk : kv.1 ∈ rest.keys := List.mem_keys_of_mem hkv
        rw [e] at hk
        exact hnot hk
      · exact hinit kv (List.mem_cons_of_mem _ hkv) h

/-- The field map `Push` builds for a series: entry of `k + Suffix`. -/
theorem render_lookup (m : Rate) (a : aggregate) (k : String) :
    (m.render a).lookup (k ++ m.Suffix) = (a.fields.lookup k).map last.rate := by
  have h := foldl_insert_lookup (fun k => k ++ m.Suffix) (append_suffix_injective m.Suffix)
    last.rate a.fields.entries a.fields.nodupKeys ∅ k
  simp only [Rate.render]
  rw [h]
  simp only [AList.lookup]
  cases List.dlookup k a.fields.entries <;> simp

/-- The field map `Push` builds for a series: its keys. -/
theorem render_mem (m : Rate) (a : aggregate) (key : String) :
    key ∈ m.render a ↔ ∃ k, k ∈ a.fields ∧ key = k ++ m.Suffix := by
  simp only [Rate.render]
  rw [foldl_insert_mem (fun k => k ++ m.Suffix) last.rate]
  constructor
  · rintro (h | ⟨kv, hkv, h⟩)
    · exact absurd h (AList.not_mem_empty _)
    · exact ⟨kv.1, AList.mem_keys.mpr (List.mem_keys_of_mem hkv), h⟩
  · rintro ⟨k, hk, h⟩
    obtain ⟨v, hv⟩ := List.exists_of_mem_keys (AList.mem_keys.mp hk)
    exact Or.inr ⟨⟨k, v⟩, hv, h⟩

/-! ## Further lemmas on `Add` -/

/-- The function `Rate.step` never removes a state. -/
theorem step_isSome (ovf : F64 → Int) (m : Rate) (ts : Int) (k : String) (v : Value)
    (old : Option last) (h : old.isSome = true) : (m.step ovf ts k v old).isSome = true := by
  cases old with
  | none => simp at h
  | some ld =>
    unfold Rate.step
    split
    · cases convert v <;> simp
    · simp

/-- The method `Add` panics on a nil cache when the metric is eligible. -/
theorem Add_nil (ovf : F64 → Int) (m : Rate) (ts : Int) (inp : Metric)
    (hm : inp.name ∈ m.Metrics) (hc : m.cache = none) : m.Add ovf ts inp = none := by
  simp [Rate.Add, hc, Rate.IsRateMetric, (scan_iff _ _).mpr hm]

/-- The state of every field of every series after `Add` of an eligible
metric on an allocated cache. -/
theorem Add_state_all (ovf : F64 → Int) (m : Rate) (ts : Int) (inp : Metric)
    (c : AList (fun _ : Nat => aggregate)) (hc : m.cache = some c)
    (hm : inp.name ∈ m.Metrics) :
    ∃ m1, m.Add ovf ts inp = some m1 ∧
      ∀ id k, m1.state id k =
        if id = inp.hashID then
          match inp.fields.lookup k with
          | none => m.state id k
          | some v => m.step ovf ts k v (m.state id k)
        else m.state id k := by
  obtain ⟨m1, c1, h1, h2, -, -, -, -, h7, h8⟩ := Add_state ovf m ts inp c hc hm
  refine ⟨m1, h1, fun id k => ?_⟩
  by_cases hid : id = inp.hashID
  · subst hid
    simp only [if_true]
    exact h8 k
  · simp only [hid, if_false]
    simp [Rate.state, h2, hc, h7 id hid]

/-- The name and tags of every series after `Add` of an eligible metric on
an allocated cache. -/
theorem Add_series (ovf : F64 → Int) (m : Rate) (ts : Int) (inp : Metric)
    (c : AList (fun _ : Nat => aggregate)) (hc : m.cache = some c)
    (hm : inp.name ∈ m.Metrics) :
    ∃ m1, m.Add ovf ts inp = some m1 ∧
      ∀ id, m1.series id =
        if id = inp.hashID then some ((m.series id).getD (inp.name, inp.tags))
        else m.series id := by
  obtain ⟨c1, a1, h1, h2, h3, h4, h5, -⟩ :=
    Add_spec ovf m ts inp c hc ((scan_iff _ _).mpr hm)
  refine ⟨_, h1, fun id => ?_⟩
  by_cases hid : id = inp.hashID
  · subst hid
    simp only [if_true, Rate.series, hc, Option.bind, h3, Option.map_some', h4, h5]
    cases c.lookup inp.hashID <;> rfl
  · simp only [hid, if_false, Rate.series, hc, Option.bind, h2 id hid]

/-- The function `Rate.step` depends on the engine through its two field
lists only. -/
theorem step_congr (ovf : F64 → Int) (m m2 : Rate) (hr : m.RateFields = m2.RateFields)
    (hb : m.BitRateFields = m2.BitRateFields) (ts : Int) (k : String) (v : Value)
    (old : Option last) : m.step ovf ts k v old = m2.step ovf ts k v old := by
  simp only [Rate.step, Rate.newRate, Rate.IsRateField, Rate.IsBitRateField, hr, hb]

/-- The loop of `Add` over the fields of a new series leaves the field map
empty when no field is both configured and numeric. -/
theorem foldl_initField_skip (m : Rate) (ts : Int) (l : List (Sigma fun _ : String => Value))
    (h : ∀ kv ∈ l, ¬ ((kv.1 ∈ m.RateFields ∨ kv.1 ∈ m.BitRateFields) ∧
      (convert kv.2).isSome = true))
    (fs : StrMap last) :
    l.foldl (fun fs kv => m.initField ts fs kv.1 kv.2) fs = fs := by
  induction l generalizing fs with
  | nil => rfl
  | cons kv rest ih =>
    simp only [List.foldl_cons]
    have hkv := h kv (List.mem_cons_self _ _)
    have hstep : m.initField ts fs kv.1 kv.2 = fs := by
      unfold Rate.initField
      split
      · rename_i hq
        cases hcv : convert kv.2 with
        | none => rfl
        | some fv =>
          exfalso
          apply hkv
          refine ⟨?_, by simp [hcv]⟩
          simp only [Bool.or_eq_true] at hq
          rcases hq with hq | hq
          · exact Or.inr ((scan_iff _ _).mp hq)
          · exact Or.inl ((scan_iff _ _).mp hq)
      · rfl
    rw [hstep]
    exact ih (fun x hx => h x (List.mem_cons_of_mem _ hx)) fs

/-- A field whose rate is 0 keeps the rate 0 through any run of observations
of its series that each come less than two seconds after the previous one,
the gap being the `int64` difference of the clock readings. -/
theorem starve_run (ovf : F64 → Int) (k : String) (id : Nat) (obs : List (Int × Metric)) :
    ∀ (m : Rate) (c : AList (fun _ : Nat => aggregate)) (ld : last),
      m.cache = some c → (k ∈ m.RateFields ∨ k ∈ m.BitRateFields) →
      m.state id k = some ld → ld.rate = 0 →
      (∀ p ∈ obs, p.2.hashID = id ∧ p.2.name ∈ m.Metrics ∧
        ∃ v fv, p.2.fields.lookup k = some v ∧ convert v = some fv) →
      List.Chain (fun a b : Int => wrap64 (b - a) < 2) ld.timestamp (obs.map Prod.fst) →
      ∃ m1 st, m.run ovf (obs.map fun p => Op.add p.1 p.2) = some m1 ∧
        m1.state id k = some st ∧ st.rate = 0 := by
  induction obs with
  | nil =>
    intro m c ld _ _ hst hz _ _
    exact ⟨m, ld, rfl, hst, hz⟩
  | cons p rest ih =>
    intro m c ld hc hk hst hz hall hgap
    obtain ⟨hid, hm, v, fv, hv, hfv⟩ := hall p (List.mem_cons_self _ _)
    simp only [List.map_cons, List.chain_cons] at hgap
    obtain ⟨hlt, hrest⟩ := hgap
    obtain ⟨m1, c1, h1, hc1, -, e2, e3, e4, -, h3⟩ := Add_state ovf m p.1 p.2 c hc hm
    have hs1 := h3 k
    rw [hv, hid] at hs1
    simp only [] at hs1
    rw [step_numeric ovf m p.1 k v fv _ hk hfv, hst] at hs1
    simp only [] at hs1
    rw [newRate_carry m p.1 k fv ld (Or.inl hlt), hz] at hs1
    have hzero : F64.toInt64 ovf (F64.ofInt 0) = 0 := F64.stable_zero ovf
    rw [hzero] at hs1
    obtain ⟨m2, st, g1, g2, g3⟩ :=
      ih m1 c1 { val := fv, timestamp := p.1, rate := 0 } hc1 (by rw [e3, e4]; exact hk) hs1 rfl
        (fun q hq => by
          obtain ⟨a, b, c⟩ := hall q (List.mem_cons_of_mem _ hq)
          exact ⟨a, e2 ▸ b, c⟩)
        hrest
    refine ⟨m2, st, ?_, g2, g3⟩
    simp only [List.map_cons, Rate.run, Rate.apply, h1, Option.some_bind]
    exact g1

/-! ## The claims -/

/-- C1, counterexample. Two cached states of the rate field `in_pkts` at
which the stored rate is not the truncation of the quotient, although two
seconds or more have elapsed and the value has not decreased.
First, the state `(0, 0, 0)` and the `uint64` value `2^64 - 1` at second 2:
the quotient is `2^63`, which does not fit in `int64`, and on amd64 `Add`
stores `-2^63`.
Second, the state `(0, -2^62, 0)` and the `uint64` value `2^63` at clock
reading `2^62`: the elapsed time is `2^63` and the quotient truncates to 1,
but the `int64` difference of the clock readings is `-2^63`, below 2, and
`Add` keeps the rate 0. -/
theorem rate_formula_counterexample :
    ((((sampleCached "in_pkts" { val := F64.ofInt 0, timestamp := 0, rate := 0 }).Add F64.amd64 2
          (sampleMetric (AList.singleton "in_pkts" (Value.uint64 18446744073709551615)))).bind
        fun m1 => m1.state 7 "in_pkts").map last.rate = some (-9223372036854775808) ∧
      (2 : Int) ≤ 2 - 0 ∧
      F64.ge (F64.ofInt 18446744073709551615) (F64.ofInt 0) = true ∧
      F64.trunc ((F64.ofInt 18446744073709551615 - F64.ofInt 0) / F64.ofInt (2 - 0)) =
        some 9223372036854775808) ∧
    ((((sampleCached "in_pkts"
            { val := F64.ofInt 0, timestamp := -4611686018427387904, rate := 0 }).Add F64.amd64
          4611686018427387904
          (sampleMetric (AList.singleton "in_pkts" (Value.uint64 9223372036854775808)))).bind
        fun m1 => m1.state 7 "in_pkts").map last.rate = some 0 ∧
      (2 : Int) ≤ 4611686018427387904 - (-4611686018427387904) ∧
      F64.ge (F64.ofInt 9223372036854775808) (F64.ofInt 0) = true ∧
      F64.trunc ((F64.ofInt 9223372036854775808 - F64.ofInt 0) /
          F64.ofInt (4611686018427387904 - (-4611686018427387904))) = some 1) := by
  refine ⟨⟨?_, ?_, ?_, ?_⟩, ⟨?_, ?_, ?_, ?_⟩⟩ <;> decide!

/-- C1, amended. Rate formula of `Add`: when the cache holds a state `ld` for
field `k` of the series, the metric carries a numeric value `fv` for `k`, the
elapsed time `ts - ld.timestamp` is at least 2 and below `2^63` (the `int64`
subtraction does not overflow) and `fv >= ld.val`, the rate stored afterwards
is the integer part of `(fv - ld.val) / elapsed` for a field that is only a
rate field, and the integer part of `(fv - ld.val) / elapsed * 8` for a
bit-rate field (the product by 8 is taken before the truncation), whenever
that integer part fits in `int64`.  The quotient and the product are those of
`float64`; the integer part `t` is the exact truncation toward zero. -/
theorem rate_formula (ovf : F64 → Int) (m : Rate) (ts : Int) (inp : Metric) (k : String)
    (v : Value) (fv : F64) (ld : last)
    (hm : inp.name ∈ m.Metrics)
    (hst : m.state inp.hashID k = some ld)
    (hv : inp.fields.lookup k = some v) (hfv : convert v = some fv)
    (hk : k ∈ m.RateFields ∨ k ∈ m.BitRateFields)
    (hel : 2 ≤ ts - ld.timestamp) (hfit : ts - ld.timestamp < 2 ^ 63)
    (hge : F64.ge fv ld.val = true) :
    ∃ m1 st, m.Add ovf ts inp = some m1 ∧ m1.state inp.hashID k = some st ∧
      (k ∉ m.BitRateFields →
        ∀ t, F64.trunc ((fv - ld.val) / F64.ofInt (ts - ld.timestamp)) = some t →
          -2 ^ 63 ≤ t → t < 2 ^ 63 → st.rate = t) ∧
      (k ∈ m.BitRateFields →
        ∀ t, F64.trunc ((fv - ld.val) / F64.ofInt (ts - ld.timestamp) * F64.ofInt 8) = some t →
          -2 ^ 63 ≤ t → t < 2 ^ 63 → st.rate = t) := by
  cases hc : m.cache with
  | none => simp [Rate.state, hc] at hst
  | some c =>
    obtain ⟨m1, c1, h1, -, -, -, -, -, -, h3⟩ := Add_state ovf m ts inp c hc hm
    have s1 := h3 k
    rw [hv] at s1
    simp only [] at s1
    rw [step_numeric ovf m ts k v fv _ hk hfv, hst] at s1
    simp only [] at s1
    rw [newRate_recompute m ts k fv ld hel hfit hge] at s1
    refine ⟨m1, _, h1, s1, ?_, ?_⟩
    · intro hb t ht h1 h2
      simp only [if_neg hb]
      exact F64.toInt64_of_trunc ovf _ t ht h1 h2
    · intro hb t ht h1 h2
      simp only [if_pos hb]
      exact F64.toInt64_of_trunc ovf _ t ht h1 h2

/-- Witness of C1: series 7 holds `in = 1000` observed at second 0 with rate
0; the snapshot `in = 1500` at second 5 stores `(1500 - 1000) / 5 * 8 = 800`
for the bit-rate field `in`. -/
theorem rate_formula_witness :
    ∃ m1 st,
      (sampleCached "in" { val := F64.ofInt 1000, timestamp := 0, rate := 0 }).Add F64.amd64 5
          (sampleMetric (AList.singleton "in" (Value.int64 1500))) = some m1 ∧
        m1.state 7 "in" = some st ∧ st.rate = 800 := by
  obtain ⟨m1, st, h1, h2, -, h4⟩ :=
    rate_formula F64.amd64
      (sampleCached "in" { val := F64.ofInt 1000, timestamp := 0, rate := 0 }) 5
      (sampleMetric (AList.singleton "in" (Value.int64 1500))) "in" (Value.int64 1500)
      (F64.ofInt 1500) { val := F64.ofInt 1000, timestamp := 0, rate := 0 }
      (by decide!) (by decide!) (by decide!) rfl (by decide!) (by decide!) (by decide!)
      (by decide!)
  exact ⟨m1, st, h1, h2, h4 (by decide!) 800 (by decide!) (by decide!) (by decide!)⟩

/-- C2, counterexample. Three runs on series 7 of the sample engine at
which the rate stored by the second `Add` is not the floor of the claim.
First, the bit-rate field `in` observed with value 0 at second 0 and 5 at
second 2: `Add` stores `int64(5 / 2 * 8) = 20`, not `floor(5 / 2) * 8 = 16`.
Second, the rate field `in_pkts` observed as `uint64` 0 at second 0 and
`2^64 - 1` at second 2: the `float64` quotient is `2^63`, which does not fit
in `int64`, and on amd64 `Add` stores `-2^63`, not `floor((2^64 - 1) / 2)`.
Third, `in_pkts` observed as 0 at clock reading `-2^62` and as `2^63` at
clock reading `2^62`: the `int64` difference of the clock readings is
`-2^63`, below 2, and `Add` keeps the rate 0, not `floor(2^63 / 2^63) = 1`. -/
theorem elapsed_rule_counterexample :
    ((((sampleEngine.Add F64.amd64 0 (sampleMetric (AList.singleton "in" (Value.int64 0)))).bind
        fun m1 => (m1.Add F64.amd64 2 (sampleMetric (AList.singleton "in" (Value.int64 5)))).bind
          fun m2 => m2.state 7 "in").map last.rate = some 20) ∧
      (20 : Int) ≠ Int.floor (((5 : ℚ) - 0) / ((2 : ℚ) - 0)) * 8) ∧
    ((((sampleEngine.Add F64.amd64 0 (sampleMetric (AList.singleton "in_pkts" (Value.uint64 0)))).bind
        fun m1 => (m1.Add F64.amd64 2
            (sampleMetric (AList.singleton "in_pkts" (Value.uint64 18446744073709551615)))).bind
          fun m2 => m2.state 7 "in_pkts").map last.rate = some (-9223372036854775808)) ∧
      (-9223372036854775808 : Int) ≠
        Int.floor (((18446744073709551615 : ℚ) - 0) / ((2 : ℚ) - 0))) ∧
    ((((sampleEngine.Add F64.amd64 (-4611686018427387904)
          (sampleMetric (AList.singleton "in_pkts" (Value.uint64 0)))).bind
        fun m1 => (m1.Add F64.amd64 4611686018427387904
            (sampleMetric (AList.singleton "in_pkts" (Value.uint64 9223372036854775808)))).bind
          fun m2 => m2.state 7 "in_pkts").map last.rate = some 0) ∧
      (0 : Int) ≠ Int.floor (((9223372036854775808 : ℚ) - 0) /
        ((4611686018427387904 : ℚ) - (-4611686018427387904)))) := by
  refine ⟨⟨by decide!, ?_⟩, ⟨by decide!, ?_⟩, ⟨by decide!, ?_⟩⟩
  · have h : Int.floor (((5 : ℚ) - 0) / ((2 : ℚ) - 0)) = 2 := by
      rw [Int.floor_eq_iff]
      norm_num
    rw [h]
    decide
  · have h : Int.floor (((18446744073709551615 : ℚ) - 0) / ((2 : ℚ) - 0)) =
        9223372036854775807 := by
      rw [Int.floor_eq_iff]
      norm_num
    rw [h]
    decide
  · have h : Int.floor (((9223372036854775808 : ℚ) - 0) /
        ((4611686018427387904 : ℚ) - (-4611686018427387904))) = 1 := by
      rw [Int.floor_eq_iff]
      norm_num
    rw [h]
    decide

/-- C2, amended. A configured field observed with the numeric value `f1` at
`t1` and then `f2` at `t2` on the same series, with `2 ≤ t2 - t1 < 2^63` (the
`int64` subtraction does not overflow) and `f2 >= f1`: the second `Add`
stores the integer part of `(f2 - f1) / (t2 - t1)` for a field that is only a
rate field and the integer part of `(f2 - f1) / (t2 - t1) * 8` for a bit-rate
field, the product by 8 coming before the truncation, whenever that integer
part fits in `int64`.  The quotient and the product are those of `float64`;
the integer part `t` is the exact truncation toward zero. -/
theorem elapsed_rule (ovf : F64 → Int) (m : Rate) (c : AList (fun _ : Nat => aggregate))
    (t1 t2 : Int) (inp1 inp2 : Metric) (k : String) (v1 v2 : Value) (f1 f2 : F64)
    (hc : m.cache = some c)
    (hm1 : inp1.name ∈ m.Metrics) (hm2 : inp2.name ∈ m.Metrics)
    (hid : inp2.hashID = inp1.hashID)
    (hv1 : inp1.fields.lookup k = some v1) (hf1 : convert v1 = some f1)
    (hv2 : inp2.fields.lookup k = some v2) (hf2 : convert v2 = some f2)
    (hk : k ∈ m.RateFields ∨ k ∈ m.BitRateFields)
    (hel : 2 ≤ t2 - t1) (hfit : t2 - t1 < 2 ^ 63) (hge : F64.ge f2 f1 = true) :
    ∃ m1 m2 st, m.Add ovf t1 inp1 = some m1 ∧ m1.Add ovf t2 inp2 = some m2 ∧
      m2.state inp1.hashID k = some st ∧
      (k ∉ m.BitRateFields →
        ∀ t, F64.trunc ((f2 - f1) / F64.ofInt (t2 - t1)) = some t →
          -2 ^ 63 ≤ t → t < 2 ^ 63 → st.rate = t) ∧
      (k ∈ m.BitRateFields →
        ∀ t, F64.trunc ((f2 - f1) / F64.ofInt (t2 - t1) * F64.ofInt 8) = some t →
          -2 ^ 63 ≤ t → t < 2 ^ 63 → st.rate = t) := by
  obtain ⟨m1, c1, h1, hc1, -, e2, e3, e4, -, h3⟩ := Add_state ovf m t1 inp1 c hc hm1
  obtain ⟨m2, c2, g1, -, -, -, -, -, -, g3⟩ :=
    Add_state ovf m1 t2 inp2 c1 hc1 (e2 ▸ hm2)
  have hk1 : k ∈ m1.RateFields ∨ k ∈ m1.BitRateFields := by rw [e3, e4]; exact hk
  have s1 := h3 k
  rw [hv1] at s1
  simp only [] at s1
  rw [step_numeric ovf m t1 k v1 f1 _ hk hf1] at s1
  have s2 := g3 k
  rw [hv2, hid] at s2
  simp only [] at s2
  rw [s1, step_numeric ovf m1 t2 k v2 f2 _ hk1 hf2] at s2
  simp only [] at s2
  rw [newRate_recompute m1 t2 k f2 _ hel hfit hge, e4] at s2
  refine ⟨m1, m2, _, h1, g1, s2, ?_, ?_⟩
  · intro hb t ht h1 h2
    simp only [if_neg hb]
    exact F64.toInt64_of_trunc ovf _ t ht h1 h2
  · intro hb t ht h1 h2
    simp only [if_pos hb]
    exact F64.toInt64_of_trunc ovf _ t ht h1 h2

/-- Witness of C2: `in` is a bit-rate field, 0 at second 0 then 5 at second
2 gives `int64(2.5 * 8) = 20`. -/
theorem elapsed_rule_witness :
    ∃ m1 m2 st,
      sampleEngine.Add F64.amd64 0 (sampleMetric (AList.singleton "in" (Value.int64 0))) = some m1 ∧
      m1.Add F64.amd64 2 (sampleMetric (AList.singleton "in" (Value.int64 5))) = some m2 ∧
      m2.state 7 "in" = some st ∧ st.rate = 20 := by
  obtain ⟨m1, m2, st, h1, h2, h3, -, h5⟩ :=
    elapsed_rule F64.amd64 sampleEngine ∅ 0 2
      (sampleMetric (AList.singleton "in" (Value.int64 0)))
      (sampleMetric (AList.singleton "in" (Value.int64 5))) "in"
      (Value.int64 0) (Value.int64 5) (F64.ofInt 0) (F64.ofInt 5)
      rfl (by decide!) (by decide!) rfl (by decide!) rfl (by decide!) rfl (by decide!)
      (by decide!) (by decide!) (by decide!)
  exact ⟨m1, m2, st, h1, h2, h3, h5 (by decide!) 20 (by decide!) (by decide!) (by decide!)⟩

/-- C3, counterexample. The rate field `in_pkts` of series 7 is first seen
with value 0 at clock reading `2^62`, which leaves the state `(0, 2^62, 0)`,
and seen again with value `2^62` at clock reading `-2^63`.  The elapsed time
`-2^63 - 2^62` is negative, hence below 2, but the `int64` subtraction wraps
around to the period `2^62`: `Add` recomputes the rate,
`int64(2^62 / 2^62) = 1`, and does not keep the previous rate 0. -/
theorem sub_interval_carry_counterexample :
    (sampleEngine.run F64.amd64
        [Op.add 4611686018427387904
          (sampleMetric (AList.singleton "in_pkts" (Value.int64 0)))]).bind
        (fun m => m.state 7 "in_pkts") =
      some { val := F64.ofInt 0, timestamp := 4611686018427387904, rate := 0 } ∧
    (-9223372036854775808 : Int) - 4611686018427387904 < 2 ∧
    ((sampleEngine.run F64.amd64
        [Op.add 4611686018427387904
          (sampleMetric (AList.singleton "in_pkts" (Value.int64 0))),
         Op.add (-9223372036854775808)
          (sampleMetric (AList.singleton "in_pkts" (Value.int64 4611686018427387904)))]).bind
        fun m => m.state 7 "in_pkts").map last.rate = some 1 := by
  refine ⟨?_, ?_, ?_⟩ <;> decide!

/-- C3, amended. Sub-interval carry-forward: in an engine made by `NewRate`
and driven by any sequence of operations, when the cache holds a state `ld`
for field `k` and an `Add` brings a numeric value for `k` at a clock reading
`ts` whose `int64` difference with `ld.timestamp` is below 2, the rate stored
afterwards is `ld.rate`, whatever the value and whether `k` is a rate or a
bit-rate field.  The `int64` difference is `ts - ld.timestamp` itself
whenever `-2^63 ≤ ts - ld.timestamp < 2^63`, so the elapsed times 1, 0 and
every negative one down to `-2^63` are included.  `hovf` says that the
`int64` the platform returns for an out-of-range conversion survives the
conversion to `float64` and back, as `-2^63` and the saturated bounds do. -/
theorem sub_interval_carry (ovf : F64 → Int)
    (hovf : ∀ y, F64.toInt64 ovf (F64.ofInt (ovf y)) = ovf y)
    (suffix : String) (metrics rateFields bitRateFields : List String) (ops : List Op)
    (m : Rate) (ts : Int) (inp : Metric) (k : String) (v : Value) (fv : F64) (ld : last)
    (hrun : (configured suffix metrics rateFields bitRateFields).run ovf ops = some m)
    (hm : inp.name ∈ metrics)
    (hst : m.state inp.hashID k = some ld)
    (hv : inp.fields.lookup k = some v) (hfv : convert v = some fv)
    (hk : k ∈ rateFields ∨ k ∈ bitRateFields)
    (hel : wrap64 (ts - ld.timestamp) < 2) :
    ∃ m1 st, m.Add ovf ts inp = some m1 ∧ m1.state inp.hashID k = some st ∧
      st.rate = ld.rate := by
  obtain ⟨e2, e3, e4, hP⟩ := run_stable ovf hovf _ rfl ops m hrun
  have e2 : m.Metrics = metrics := e2
  have e3 : m.RateFields = rateFields := e3
  have e4 : m.BitRateFields = bitRateFields := e4
  cases hc : m.cache with
  | none => simp [Rate.state, hc] at hst
  | some c =>
    obtain ⟨m1, c1, h1, -, -, -, -, -, -, h3⟩ := Add_state ovf m ts inp c hc (e2 ▸ hm)
    refine ⟨m1, { val := fv, timestamp := ts, rate := F64.toInt64 ovf (m.newRate ts k fv ld) },
      h1, ?_, ?_⟩
    · rw [h3 k, hv]
      simp only []
      rw [step_numeric ovf m ts k v fv _ (by rw [e3, e4]; exact hk) hfv, hst]
    · simp only []
      rw [newRate_carry m ts k fv ld (Or.inl hel)]
      exact hP _ _ _ hst

/-- Witness of C3: the sample engine has seen `in = 1000` at second 0 and
`in = 1500` at second 5 (rate 800); `in = 99999` at second 6 keeps 800. -/
theorem sub_interval_carry_witness :
    ∃ m1 st, sampleWarm.Add F64.amd64 6
        (sampleMetric (AList.singleton "in" (Value.int64 99999))) = some m1 ∧
      m1.state 7 "in" = some st ∧ st.rate = 800 :=
  sub_interval_carry F64.amd64 F64.stable_amd64 "_rate" ["snmp"] ["in_pkts"] ["in"]
    [Op.add 0 (sampleMetric (AList.singleton "in" (Value.int64 1000))),
     Op.add 5 (sampleMetric (AList.singleton "in" (Value.int64 1500)))]
    sampleWarm 6 (sampleMetric (AList.singleton "in" (Value.int64 99999))) "in"
    (Value.int64 99999) (F64.ofInt 99999) { val := F64.ofInt 1500, timestamp := 5, rate := 800 }
    (by decide!) (by decide!) (by decide!) (by decide!) rfl (by decide!) (by decide!)

/-- C4. Counter-decrease carry-forward: in an engine made by `NewRate` and
driven by any sequence of operations, when the cache holds a state `ld` for
field `k` and an `Add` brings a numeric value below `ld.val`, the rate stored
afterwards is `ld.rate`: no rate is computed from the negative difference.
This holds whatever the elapsed time, so in particular when two seconds or
more have elapsed.  `hovf` is as in C3. -/
theorem counter_decrease_carry (ovf : F64 → Int)
    (hovf : ∀ y, F64.toInt64 ovf (F64.ofInt (ovf y)) = ovf y)
    (suffix : String) (metrics rateFields bitRateFields : List String) (ops : List Op)
    (m : Rate) (ts : Int) (inp : Metric) (k : String) (v : Value) (fv : F64) (ld : last)
    (hrun : (configured suffix metrics rateFields bitRateFields).run ovf ops = some m)
    (hm : inp.name ∈ metrics)
    (hst : m.state inp.hashID k = some ld)
    (hv : inp.fields.lookup k = some v) (hfv : convert v = some fv)
    (hk : k ∈ rateFields ∨ k ∈ bitRateFields)
    (hlt : F64.lt fv ld.val = true) :
    ∃ m1 st, m.Add ovf ts inp = some m1 ∧ m1.state inp.hashID k = some st ∧
      st.rate = ld.rate := by
  obtain ⟨e2, e3, e4, hP⟩ := run_stable ovf hovf _ rfl ops m hrun
  have e2 : m.Metrics = metrics := e2
  have e3 : m.RateFields = rateFields := e3
  have e4 : m.BitRateFields = bitRateFields := e4
  cases hc : m.cache with
  | none => simp [Rate.state, hc] at hst
  | some c =>
    obtain ⟨m1, c1, h1, -, -, -, -, -, -, h3⟩ := Add_state ovf m ts inp c hc (e2 ▸ hm)
    refine ⟨m1, { val := fv, timestamp := ts, rate := F64.toInt64 ovf (m.newRate ts k fv ld) },
      h1, ?_, ?_⟩
    · rw [h3 k, hv]
      simp only []
      rw [step_numeric ovf m ts k v fv _ (by rw [e3, e4]; exact hk) hfv, hst]
    · simp only []
      rw [newRate_carry m ts k fv ld (Or.inr (F64.lt_not_ge _ _ hlt))]
      exact hP _ _ _ hst

/-- Witness of C4: the sample engine has seen `in = 1000` at second 0 and
`in = 1500` at second 5 (rate 800); `in = 100` at second 10 keeps 800. -/
theorem counter_decrease_carry_witness :
    ∃ m1 st, sampleWarm.Add F64.amd64 10
        (sampleMetric (AList.singleton "in" (Value.int64 100))) = some m1 ∧
      m1.state 7 "in" = some st ∧ st.rate = 800 :=
  counter_decrease_carry F64.amd64 F64.stable_amd64 "_rate" ["snmp"] ["in_pkts"] ["in"]
    [Op.add 0 (sampleMetric (AList.singleton "in" (Value.int64 1000))),
     Op.add 5 (sampleMetric (AList.singleton "in" (Value.int64 1500)))]
    sampleWarm 10 (sampleMetric (AList.singleton "in" (Value.int64 100))) "in"
    (Value.int64 100) (F64.ofInt 100) { val := F64.ofInt 1500, timestamp := 5, rate := 800 }
    (by decide!) (by decide!) (by decide!) (by decide!) rfl (by decide!) (by decide!)

/-- C5, failing input. On amd64, where `int64(x)` of a `float64` outside
the `int64` range is `-2^63`: the rate field `in_pkts` is observed as
`uint64` 0 at second 0 and as `uint64` `2^64 - 1` at second 2.  The rate
`2^64 / 2 = 2^63` does not fit, `Add` stores `-2^63` and `Push` emits it. -/
theorem negative_rate_on_overflow :
    (sampleEngine.run F64.amd64
        [Op.add 0 (sampleMetric (AList.singleton "in_pkts" (Value.uint64 0))),
         Op.add 2 (sampleMetric (AList.singleton "in_pkts" (Value.uint64 18446744073709551615)))]).map
        Rate.Push =
      some [{ name := "snmp", fields := AList.singleton "in_pkts_rate" (-9223372036854775808),
              tags := AList.singleton "if_name" "eth0" }] := by
  decide!

/-- C6. First sight creates a zero-rate state: for an eligible metric and a
configured field `k` with a numeric value `fv` that has no state yet (the
series is not cached, or it is cached without `k`), `Add` leaves the state
`(fv, ts, 0)`. -/
theorem first_sight (ovf : F64 → Int) (m : Rate) (c : AList (fun _ : Nat => aggregate))
    (ts : Int) (inp : Metric) (k : String) (v : Value) (fv : F64)
    (hc : m.cache = some c) (hm : inp.name ∈ m.Metrics)
    (hv : inp.fields.lookup k = some v) (hfv : convert v = some fv)
    (hk : k ∈ m.RateFields ∨ k ∈ m.BitRateFields)
    (hnew : c.lookup inp.hashID = none ∨
      ∃ a, c.lookup inp.hashID = some a ∧ a.fields.lookup k = none) :
    ∃ m1, m.Add ovf ts inp = some m1 ∧
      m1.state inp.hashID k = some { val := fv, timestamp := ts, rate := 0 } := by
  have hst : m.state inp.hashID k = none := by
    rcases hnew with h | ⟨a, h, h2⟩
    · simp [Rate.state, hc, h]
    · simp [Rate.state, hc, h, h2]
  obtain ⟨m1, c1, h1, -, -, -, -, -, -, h3⟩ := Add_state ovf m ts inp c hc hm
  refine ⟨m1, h1, ?_⟩
  rw [h3 k, hv]
  simp only []
  rw [step_numeric ovf m ts k v fv _ hk hfv, hst]

/-- Witness of C6: the empty sample engine sees `in = 1000` at second 3. -/
theorem first_sight_witness :
    ∃ m1, sampleEngine.Add F64.amd64 3
        (sampleMetric (AList.singleton "in" (Value.uint64 1000))) = some m1 ∧
      m1.state 7 "in" = some { val := F64.ofInt 1000, timestamp := 3, rate := 0 } :=
  first_sight F64.amd64 sampleEngine ∅ 3
    (sampleMetric (AList.singleton "in" (Value.uint64 1000))) "in" (Value.uint64 1000)
    (F64.ofInt 1000) rfl (by decide!) (by decide!) rfl (by decide!) (Or.inl (by decide!))

/-- C7, counterexample. The field `in` of series 7 is first seen at second 0
with value 1000; a second `Add` (1500 at second 5) comes before the first
`Push`, which then emits `in_rate = 800`, not 0. -/
theorem first_sight_emission_counterexample :
    sampleEngine.state 7 "in" = none ∧
    (sampleEngine.run F64.amd64
        [Op.add 0 (sampleMetric (AList.singleton "in" (Value.int64 1000))),
         Op.add 5 (sampleMetric (AList.singleton "in" (Value.int64 1500)))]).map Rate.Push =
      some [{ name := "snmp", fields := AList.singleton "in_rate" 800,
              tags := AList.singleton "if_name" "eth0" }] := by
  constructor <;> decide!

/-- C7, amended. First-sight rule at emission: when field `k` of a series is
first observed by an `Add`, and no later `Add` before the next `Push` brings
a numeric value for `k` on that series (later operations are `Push`, `Reset`
and `Add` of other series, of metrics that are not eligible, or of snapshots
without a numeric `k`), that `Push` emits the value 0 under the key
`k + Suffix` in the record of the series. -/
theorem first_sight_emission (ovf : F64 → Int) (m : Rate)
    (c : AList (fun _ : Nat => aggregate)) (ts : Int) (inp : Metric) (k : String) (v : Value)
    (fv : F64) (ops : List Op)
    (hc : m.cache = some c) (hm : inp.name ∈ m.Metrics)
    (hv : inp.fields.lookup k = some v) (hfv : convert v = some fv)
    (hk : k ∈ m.RateFields ∨ k ∈ m.BitRateFields)
    (hnew : m.state inp.hashID k = none)
    (hops : ∀ ts2 inp2, Op.add ts2 inp2 ∈ ops →
      inp2.hashID ≠ inp.hashID ∨ inp2.name ∉ m.Metrics ∨
        (inp2.fields.lookup k).bind convert = none) :
    ∃ m1 m2 c2 a, m.Add ovf ts inp = some m1 ∧ m1.run ovf ops = some m2 ∧
      m2.cache = some c2 ∧ c2.lookup inp.hashID = some a ∧
      { name := a.name, fields := m2.render a, tags := a.tags } ∈ m2.Push ∧
      (m2.render a).lookup (k ++ m.Suffix) = some 0 := by
  obtain ⟨m1, c1, h1, hc1, e1, e2, -, -, -, h3⟩ := Add_state ovf m ts inp c hc hm
  have hs1 : m1.state inp.hashID k = some { val := fv, timestamp := ts, rate := 0 } := by
    rw [h3 k, hv]
    simp only []
    rw [step_numeric ovf m ts k v fv _ hk hfv, hnew]
  obtain ⟨m2, c2, g1, g2, f1, f2, -, -, hP⟩ :=
    run_invariant ovf
      (fun x => x.Metrics = m.Metrics ∧
        x.state inp.hashID k = some { val := fv, timestamp := ts, rate := 0 })
      (fun op => ∀ ts2 inp2, op = Op.add ts2 inp2 →
        inp2.hashID ≠ inp.hashID ∨ inp2.name ∉ m.Metrics ∨
          (inp2.fields.lookup k).bind convert = none)
      (by
        intro x op x1 hR hcx hP h
        obtain ⟨cx, hcx2⟩ := hcx
        obtain ⟨x2, c3, q1, -, -, q4, -, -⟩ := apply_ok ovf x op cx hcx2
        rw [h] at q1
        simp only [Option.some.injEq] at q1
        subst q1
        refine ⟨q4.trans hP.1, ?_⟩
        rcases apply_state ovf x op x1 ⟨cx, hcx2⟩ h inp.hashID k with
          h4 | ⟨ts2, inp2, v2, hop, hel, hid, hv2, h4⟩
        · rw [h4]; exact hP.2
        · rcases hR ts2 inp2 hop with h5 | h5 | h5
          · exact absurd hid.symm h5
          · exact absurd (hP.1 ▸ hel) h5
          · rw [hv2] at h5
            rw [h4, step_nonnumeric ovf x ts2 k v2 _ h5]
            exact hP.2)
      ops (fun op hop ts2 inp2 e => hops ts2 inp2 (e ▸ hop)) m1 c1 hc1 ⟨e2, hs1⟩
  obtain ⟨-, hs2⟩ := hP
  simp only [Rate.state, g2, Option.bind] at hs2
  cases ha : c2.lookup inp.hashID with
  | none => simp [ha] at hs2
  | some a =>
    simp only [ha] at hs2
    refine ⟨m1, m2, c2, a, h1, g1, g2, ha, ?_, ?_⟩
    · have hmem : Sigma.mk inp.hashID a ∈ c2.entries := AList.mem_lookup_iff.mp ha
      simp only [Rate.Push, g2, List.mem_map]
      exact ⟨⟨inp.hashID, a⟩, hmem, rfl⟩
    · have := render_lookup m2 a k
      rw [f1, e1] at this
      rw [this, hs2]
      rfl

/-- Witness of C7: `in` is first seen at second 0; a `Reset`, a snapshot of
another series and a snapshot without `in` follow; `Push` emits `in_rate = 0`. -/
theorem first_sight_emission_witness :
    ∃ m1 m2 c2 a,
      sampleEngine.Add F64.amd64 0 (sampleMetric (AList.singleton "in" (Value.int64 1000)))
        = some m1 ∧
      m1.run F64.amd64
        [Op.reset,
         Op.add 5 { sampleMetric (AList.singleton "in" (Value.int64 1500)) with hashID := 8 },
         Op.add 9 (sampleMetric (AList.singleton "in_pkts" (Value.int64 3)))] = some m2 ∧
      m2.cache = some c2 ∧ c2.lookup 7 = some a ∧
      { name := a.name, fields := m2.render a, tags := a.tags } ∈ m2.Push ∧
      (m2.render a).lookup "in_rate" = some 0 :=
  first_sight_emission F64.amd64 sampleEngine ∅ 0
    (sampleMetric (AList.singleton "in" (Value.int64 1000))) "in" (Value.int64 1000)
    (F64.ofInt 1000) _ rfl (by decide!) (by decide!) rfl (by decide!) (by decide!) (by
      intro ts2 inp2 h
      simp only [List.mem_cons, List.mem_singleton] at h
      rcases h with h | h | h | h
      · cases h
      · obtain ⟨-, rfl⟩ := Op.add.inj h
        exact Or.inl (by decide)
      · obtain ⟨-, rfl⟩ := Op.add.inj h
        exact Or.inr (Or.inr (by decide!))
      · cases h)

/-- C8. Metric filtering: `Add` of a snapshot whose metric name is not in
`Metrics` returns the engine unchanged; hence an engine made by `NewRate`
whose every snapshot is such a one keeps an empty cache through any sequence
of `Add`, `Push` and `Reset`, and `Push` emits nothing. -/
theorem metric_filtering (ovf : F64 → Int) :
    (∀ (m : Rate) (ts : Int) (inp : Metric), inp.name ∉ m.Metrics → m.Add ovf ts inp = some m) ∧
    ∀ (suffix : String) (metrics rateFields bitRateFields : List String) (ops : List Op),
      (∀ ts inp, Op.add ts inp ∈ ops → inp.name ∉ metrics) →
      ∃ m1, (configured suffix metrics rateFields bitRateFields).run ovf ops = some m1 ∧
        m1.cache = some ∅ ∧ m1.Push = [] := by
  refine ⟨fun m ts inp h => Add_ineligible ovf m ts inp h, ?_⟩
  intro suffix metrics rateFields bitRateFields ops hops
  have key : ∀ (ops : List Op) (m : Rate), m.cache = some ∅ →
      (∀ ts inp, Op.add ts inp ∈ ops → inp.name ∉ m.Metrics) → m.run ovf ops = some m := by
    intro ops
    induction ops with
    | nil => intro m _ _; rfl
    | cons op rest ih =>
      intro m hc h
      have hrest : ∀ ts inp, Op.add ts inp ∈ rest → inp.name ∉ m.Metrics :=
        fun ts inp hin => h ts inp (List.mem_cons_of_mem _ hin)
      cases op with
      | add ts inp =>
        have h1 := Add_ineligible ovf m ts inp (h ts inp (List.mem_cons_self _ _))
        simp [Rate.run, Rate.apply, h1, ih m hc hrest]
      | push => simp [Rate.run, Rate.apply, ih m hc hrest]
      | reset =>
        have h1 : m.Reset = m := by simp [Rate.Reset, hc]
        simp [Rate.run, Rate.apply, h1, ih m hc hrest]
  refine ⟨_, key ops _ rfl hops, rfl, rfl⟩

/-- Witness of C8: the sample engine receives two `cpu` snapshots around a
`Push` and a `Reset`; its cache stays empty and `Push` emits nothing. -/
theorem metric_filtering_witness :
    ∃ m1, sampleEngine.run F64.amd64
        [Op.add 0 { sampleMetric (AList.singleton "in" (Value.int64 1)) with name := "cpu" },
         Op.push, Op.reset,
         Op.add 9 { sampleMetric (AList.singleton "in" (Value.int64 2)) with name := "cpu" }]
        = some m1 ∧ m1.cache = some ∅ ∧ m1.Push = [] :=
  (metric_filtering F64.amd64).2 "_rate" ["snmp"] ["in_pkts"] ["in"] _ (by
    intro ts inp h
    simp only [List.mem_cons, List.mem_singleton] at h
    rcases h with h | h | h | h | h
    · obtain ⟨-, rfl⟩ := Op.add.inj h
      decide
    · cases h
    · cases h
    · obtain ⟨-, rfl⟩ := Op.add.inj h
      decide
    · cases h)

/-- C9. Field filtering: after any sequence of `Add`, `Push` and `Reset` on an
engine made by `NewRate` (the sequence never panics), every field name held
in a cache entry is in `RateFields` or in `BitRateFields`, every key `Push`
emits is `k + Suffix` for such a `k`, and a field outside both lists has no
state in any series. -/
theorem field_filtering (ovf : F64 → Int) (suffix : String)
    (metrics rateFields bitRateFields : List String) (ops : List Op) :
    ∃ m1 c1, (configured suffix metrics rateFields bitRateFields).run ovf ops = some m1 ∧
      m1.cache = some c1 ∧
      (∀ id a k, c1.lookup id = some a → k ∈ a.fields → k ∈ rateFields ∨ k ∈ bitRateFields) ∧
      (∀ r ∈ m1.Push, ∀ key, key ∈ r.fields →
        ∃ k, key = k ++ suffix ∧ (k ∈ rateFields ∨ k ∈ bitRateFields)) ∧
      ∀ k, k ∉ rateFields → k ∉ bitRateFields → ∀ id, m1.state id k = none := by
  obtain ⟨m1, c1, h1, h2, e1, -, e3, e4, hP⟩ :=
    run_invariant ovf
      (fun m => ∀ id k, (m.state id k).isSome → k ∈ m.RateFields ∨ k ∈ m.BitRateFields)
      (fun _ => True)
      (by
        intro m op m1 _ hc hP h id k hs
        obtain ⟨c, hc2⟩ := hc
        obtain ⟨m2, c2, g1, -, -, -, g5, g6⟩ := apply_ok ovf m op c hc2
        rw [h] at g1
        simp only [Option.some.injEq] at g1
        subst g1
        rw [g5, g6]
        rcases apply_state ovf m op m1 ⟨c, hc2⟩ h id k with h3 | ⟨ts, inp, v, -, -, -, -, h3⟩
        · exact hP id k (h3 ▸ hs)
        · rcases step_cases ovf m ts k v (m.state id k) with h4 | h4
          · exact hP id k (h4 ▸ h3 ▸ hs)
          · exact h4)
      ops (fun _ _ => trivial) (configured suffix metrics rateFields bitRateFields) ∅ rfl
      (by
        intro id k hs
        simp [Rate.state, configured, NewRate, Rate.Reset] at hs)
  have e1 : m1.Suffix = suffix := e1
  have e3 : m1.RateFields = rateFields := e3
  have e4 : m1.BitRateFields = bitRateFields := e4
  have hfield : ∀ id a k, c1.lookup id = some a → k ∈ a.fields →
      k ∈ rateFields ∨ k ∈ bitRateFields := by
    intro id a k ha hk
    have := hP id k (by simp [Rate.state, h2, ha, AList.lookup_isSome, hk])
    rwa [e3, e4] at this
  refine ⟨m1, c1, h1, h2, hfield, ?_, ?_⟩
  · intro r hr key hkey
    simp only [Rate.Push, h2, List.mem_map] at hr
    obtain ⟨⟨id, a⟩, hmem, rfl⟩ := hr
    obtain ⟨k, hk, hkk⟩ := (render_mem m1 a key).mp hkey
    exact ⟨k, e1 ▸ hkk, hfield id a k (AList.mem_lookup_iff.mpr hmem) hk⟩
  · intro k hr hb id
    cases hs : m1.state id k with
    | none => rfl
    | some st =>
      have := hP id k (by simp [hs])
      rw [e3, e4] at this
      rcases this with h | h
      · exact absurd h hr
      · exact absurd h hb

/-- C10. `Push` renders the cache exactly: it emits one record per cached
series (as many records as series, each series giving the record with its
name and tags, and no other record; none at all for a nil cache), and the
field map of the record of a series has the entry `k + Suffix ↦ lastRate`
for every cached field `k`, no other key, and as many entries as the series
has cached fields. -/
theorem push_renders (m : Rate) :
    (m.cache = none → m.Push = []) ∧
    (∀ c, m.cache = some c →
      m.Push.length = c.keys.length ∧
      (∀ id a, c.lookup id = some a →
        { name := a.name, fields := m.render a, tags := a.tags } ∈ m.Push) ∧
      (∀ r ∈ m.Push, ∃ id a, c.lookup id = some a ∧
        r = { name := a.name, fields := m.render a, tags := a.tags })) ∧
    ∀ a : aggregate,
      (∀ k, (m.render a).lookup (k ++ m.Suffix) = (a.fields.lookup k).map last.rate) ∧
      (∀ key, key ∈ m.render a → ∃ k, k ∈ a.fields ∧ key = k ++ m.Suffix) ∧
      (m.render a).keys.length = a.fields.keys.length := by
  refine ⟨fun hn => by simp [Rate.Push, hn], fun c hc => ⟨?_, ?_, ?_⟩,
    fun a => ⟨render_lookup m a, fun key => (render_mem m a key).mp, ?_⟩⟩
  · simp [Rate.Push, hc, AList.keys, List.keys]
  · intro id a h
    have hmem : Sigma.mk id a ∈ c.entries := AList.mem_lookup_iff.mp h
    simp only [Rate.Push, hc, List.mem_map]
    exact ⟨⟨id, a⟩, hmem, rfl⟩
  · intro r hr
    simp only [Rate.Push, hc, List.mem_map] at hr
    obtain ⟨⟨id, a⟩, hmem, rfl⟩ := hr
    exact ⟨id, a, AList.mem_lookup_iff.mpr hmem, rfl⟩
  · have h := foldl_insert_length (fun k => k ++ m.Suffix) (append_suffix_injective m.Suffix)
      last.rate a.fields.entries a.fields.nodupKeys ∅ (fun _ _ => AList.not_mem_empty _)
    simp only [AList.keys, List.keys, List.length_map, Rate.render]
    rw [h]
    simp

/-- Witness of C10: one cached series with the field `in` at rate 800. -/
theorem push_renders_witness :
    sampleWarm.Push =
      [{ name := "snmp", fields := AList.singleton "in_rate" 800,
         tags := AList.singleton "if_name" "eth0" }] ∧
    sampleWarm.Push.length = 1 := by
  have h := (push_renders sampleWarm).2.1 _ rfl
  exact ⟨by decide!, h.1⟩

/-- C11. Retention across flush: `Push` leaves the engine as it is; `Reset`
on an engine whose cache is allocated returns the engine unchanged, `Reset`
on a nil cache allocates an empty one, and `Reset` twice is `Reset` once;
hence `Push`, `Reset`, `Push` with no `Add` in between emits the same
records both times, whatever the cache. -/
theorem retention_across_flush (ovf : F64 → Int) (m : Rate) :
    m.apply ovf Op.push = some m ∧
    (∀ c, m.cache = some c → m.Reset = m) ∧
    (m.cache = none → m.Reset = { m with cache := some ∅ }) ∧
    m.Reset.Reset = m.Reset ∧
    (m.run ovf [Op.push, Op.reset]).map Rate.Push = some m.Push := by
  refine ⟨rfl, ?_, ?_, ?_, ?_⟩
  · intro c hc
    simp [Rate.Reset, hc]
  · intro hn
    simp [Rate.Reset, hn]
  · cases hc : m.cache <;> simp [Rate.Reset, hc]
  · cases hc : m.cache with
    | none => simp [Rate.run, Rate.apply, Rate.Reset, Rate.Push, hc]
    | some c => simp [Rate.run, Rate.apply, Rate.Reset, hc]

/-- C12. Value and timestamp are refreshed on every branch: for an eligible
metric and a configured field `k` with a numeric value `fv`, the state of
`k` after `Add` at clock `ts` has `val = fv` and `timestamp = ts`, whatever
the state of `k` before (none, or any value, clock reading and rate). -/
theorem value_timestamp_refreshed (ovf : F64 → Int) (m : Rate)
    (c : AList (fun _ : Nat => aggregate)) (ts : Int) (inp : Metric) (k : String) (v : Value)
    (fv : F64)
    (hc : m.cache = some c) (hm : inp.name ∈ m.Metrics)
    (hv : inp.fields.lookup k = some v) (hfv : convert v = some fv)
    (hk : k ∈ m.RateFields ∨ k ∈ m.BitRateFields) :
    ∃ m1 st, m.Add ovf ts inp = some m1 ∧ m1.state inp.hashID k = some st ∧
      st.val = fv ∧ st.timestamp = ts := by
  obtain ⟨m1, c1, h1, -, -, -, -, -, -, h3⟩ := Add_state ovf m ts inp c hc hm
  have hs := h3 k
  rw [hv] at hs
  simp only [] at hs
  rw [step_numeric ovf m ts k v fv _ hk hfv] at hs
  exact ⟨m1, _, h1, hs, rfl, rfl⟩

/-- Witness of C12: the warm sample engine (`in = 1500` at second 5, rate
800) sees the lower value `in = 100` at second 10: value and clock reading
are stored although the rate is carried forward. -/
theorem value_timestamp_refreshed_witness :
    ∃ m1 st, sampleWarm.Add F64.amd64 10
        (sampleMetric (AList.singleton "in" (Value.int64 100))) = some m1 ∧
      m1.state 7 "in" = some st ∧ st.val = F64.ofInt 100 ∧ st.timestamp = 10 :=
  value_timestamp_refreshed F64.amd64 sampleWarm _ 10
    (sampleMetric (AList.singleton "in" (Value.int64 100))) "in" (Value.int64 100)
    (F64.ofInt 100) rfl (by decide!) (by decide!) rfl (by decide!)

/-- C13. Cache retention: an operation (`Add` of any snapshot at any clock
reading, `Push`, `Reset`) on an engine with an allocated cache succeeds and
keeps the cache allocated; every series cached before is cached afterwards
under the same key with the same name and the same tags, and every field
cached in it before is cached in it afterwards. -/
theorem cache_retention (ovf : F64 → Int) (m : Rate) (c : AList (fun _ : Nat => aggregate))
    (op : Op) (hc : m.cache = some c) :
    ∃ m1 c1, m.apply ovf op = some m1 ∧ m1.cache = some c1 ∧
      ∀ id a, c.lookup id = some a →
        ∃ a1, c1.lookup id = some a1 ∧ a1.name = a.name ∧ a1.tags = a.tags ∧
          ∀ k, k ∈ a.fields → k ∈ a1.fields := by
  have same : ∃ m1 c1, some m = some m1 ∧ m1.cache = some c1 ∧
      ∀ id a, c.lookup id = some a →
        ∃ a1, c1.lookup id = some a1 ∧ a1.name = a.name ∧ a1.tags = a.tags ∧
          ∀ k, k ∈ a.fields → k ∈ a1.fields :=
    ⟨m, c, rfl, hc, fun id a h => ⟨a, h, rfl, rfl, fun _ hk => hk⟩⟩
  cases op with
  | push => exact same
  | reset =>
    have h1 : m.Reset = m := by simp [Rate.Reset, hc]
    simp only [Rate.apply, h1]
    exact same
  | add ts inp =>
    by_cases hm : inp.name ∈ m.Metrics
    · obtain ⟨c1, a1, h1, h2, h3, h4, h5, h6⟩ :=
        Add_spec ovf m ts inp c hc ((scan_iff _ _).mpr hm)
      refine ⟨_, c1, h1, rfl, ?_⟩
      intro id a ha
      by_cases hid : id = inp.hashID
      · subst hid
        refine ⟨a1, h3, ?_, ?_, ?_⟩
        · rw [h4, ha]; rfl
        · rw [h5, ha]; rfl
        · intro k hk
          have hold : (m.state inp.hashID k).isSome = true := by
            simp only [Rate.state, hc, ha, Option.bind]
            exact AList.lookup_isSome.mpr hk
          apply AList.lookup_isSome.mp
          rw [h6 k]
          cases hv : inp.fields.lookup k with
          | none => exact hold
          | some v => exact step_isSome ovf m ts k v _ hold
      · exact ⟨a, (h2 id hid).trans ha, rfl, rfl, fun _ hk => hk⟩
    · simp only [Rate.apply, Add_ineligible ovf m ts inp hm]
      exact same

/-- Witness of C13: the warm sample engine receives, under the key 7, a
snapshot with another tag set and another field; the series keeps its name
and tags and its field `in`. -/
theorem cache_retention_witness :
    ∃ m1 c1,
      sampleWarm.apply F64.amd64
        (Op.add 9 { name := "snmp", tags := ∅,
                    fields := AList.singleton "in_pkts" (Value.int64 5), hashID := 7 })
        = some m1 ∧ m1.cache = some c1 ∧
      ∃ a1, c1.lookup 7 = some a1 ∧ a1.name = "snmp" ∧
        a1.tags = AList.singleton "if_name" "eth0" ∧ "in" ∈ a1.fields := by
  obtain ⟨m1, c1, h1, h2, h3⟩ :=
    cache_retention F64.amd64 sampleWarm _
      (Op.add 9 { name := "snmp", tags := ∅,
                  fields := AList.singleton "in_pkts" (Value.int64 5), hashID := 7 }) rfl
  obtain ⟨a1, g1, g2, g3, g4⟩ :=
    h3 7 { fields := AList.singleton "in" { val := F64.ofInt 1500, timestamp := 5, rate := 800 },
           name := "snmp", tags := AList.singleton "if_name" "eth0" } (by decide!)
  exact ⟨m1, c1, h1, h2, a1, g1, g2, g3, g4 "in" (by decide!)⟩

/-- C14. Non-numeric values are skipped per field: `convert` succeeds on
`float64`, `int64` and `uint64` values, giving the value as a `float64`, and
fails on the other kinds; a field `k` of the snapshot whose value fails
`convert` keeps the state it had (none if it had none), and every field of
every series ends in the state it would have if `k` were not in the
snapshot at all. -/
theorem non_numeric_skipped (ovf : F64 → Int) (m : Rate) (ts : Int) (inp : Metric)
    (k : String) (v : Value)
    (hv : inp.fields.lookup k = some v) (hcv : convert v = none) :
    ((∀ f, convert (Value.float64 f) = some f) ∧
      (∀ i, convert (Value.int64 i) = some (F64.ofInt i)) ∧
      (∀ n, convert (Value.uint64 n) = some (F64.ofInt n)) ∧
      (∀ s, convert (Value.str s) = none) ∧ (∀ b, convert (Value.bool b) = none)) ∧
    (∀ m1, m.Add ovf ts inp = some m1 → m1.state inp.hashID k = m.state inp.hashID k) ∧
    ∀ id j, (m.Add ovf ts inp).map (fun m1 => m1.state id j) =
      (m.Add ovf ts { inp with fields := inp.fields.erase k }).map (fun m1 => m1.state id j) := by
  refine ⟨⟨fun _ => rfl, fun _ => rfl, fun _ => rfl, fun _ => rfl, fun _ => rfl⟩, ?_, ?_⟩
  · intro m1 h1
    by_cases hm : inp.name ∈ m.Metrics
    · cases hc : m.cache with
      | none => rw [Add_nil ovf m ts inp hm hc] at h1; cases h1
      | some c =>
        obtain ⟨m2, g1, g2⟩ := Add_state_all ovf m ts inp c hc hm
        rw [h1] at g1
        simp only [Option.some.injEq] at g1
        subst g1
        rw [g2]
        simp only [if_true, hv]
        exact step_nonnumeric ovf m ts k v _ hcv
    · rw [Add_ineligible ovf m ts inp hm] at h1
      simp only [Option.some.injEq] at h1
      rw [← h1]
  · intro id j
    by_cases hm : inp.name ∈ m.Metrics
    · cases hc : m.cache with
      | none =>
        rw [Add_nil ovf m ts inp hm hc,
          Add_nil ovf m ts { inp with fields := inp.fields.erase k } hm hc]
      | some c =>
        obtain ⟨m1, g1, g2⟩ := Add_state_all ovf m ts inp c hc hm
        obtain ⟨m2, f1, f2⟩ :=
          Add_state_all ovf m ts { inp with fields := inp.fields.erase k } c hc hm
        rw [g1, f1]
        simp only [Option.map_some', Option.some.injEq]
        rw [g2, f2]
        by_cases hid : id = inp.hashID
        · simp only [hid, if_true]
          by_cases hj : j = k
          · subst hj
            rw [hv, AList.lookup_erase]
            exact step_nonnumeric ovf m ts j v _ hcv
          · rw [AList.lookup_erase_ne hj]
        · simp only [hid, if_false]
    · rw [Add_ineligible ovf m ts inp hm,
        Add_ineligible ovf m ts { inp with fields := inp.fields.erase k } hm]

/-- Witness of C14: the warm sample engine receives `in = "down"` (a string)
together with `in_pkts = 7`; every field ends as if the snapshot had carried
`in_pkts = 7` alone, and `in` keeps its state. -/
theorem non_numeric_skipped_witness :
    (sampleWarm.Add F64.amd64 9
        (sampleMetric ((AList.singleton "in" (Value.str "down")).insert "in_pkts"
          (Value.int64 7)))).map (fun m1 => (m1.state 7 "in", m1.state 7 "in_pkts")) =
      (sampleWarm.Add F64.amd64 9
        (sampleMetric (AList.singleton "in_pkts" (Value.int64 7)))).map
          (fun m1 => (m1.state 7 "in", m1.state 7 "in_pkts")) ∧
    (sampleWarm.Add F64.amd64 9
        (sampleMetric ((AList.singleton "in" (Value.str "down")).insert "in_pkts"
          (Value.int64 7)))).map (fun m1 => m1.state 7 "in") =
      some (some { val := F64.ofInt 1500, timestamp := 5, rate := 800 }) := by
  have h := non_numeric_skipped F64.amd64 sampleWarm 9
    (sampleMetric ((AList.singleton "in" (Value.str "down")).insert "in_pkts" (Value.int64 7)))
    "in" (Value.str "down") (by decide!) rfl
  constructor
  · decide!
  · have h2 := h.2.2 7 "in"
    rw [h2]
    decide!

/-- C15. Concrete scenario: the engine made by `NewRate` with metrics
`["snmp"]`, bit-rate fields `["in"]`, no rate field and suffix `"_rate"`
sees `in = 1000` at second 0 and then `in = 1500` at second 5 on the same
series (the value being an `int64`, a `uint64` or a `float64`); `Push` then
emits exactly one record, named `snmp`, with the field map `{"in_rate": 800}`. -/
theorem concrete_scenario (ovf : F64 → Int) (tags : StrMap String) (id : Nat) (v1 v2 : Value)
    (hv1 : v1 = Value.int64 1000 ∨ v1 = Value.uint64 1000 ∨
      v1 = Value.float64 (F64.ofInt 1000))
    (hv2 : v2 = Value.int64 1500 ∨ v2 = Value.uint64 1500 ∨
      v2 = Value.float64 (F64.ofInt 1500)) :
    ((configured "_rate" ["snmp"] [] ["in"]).run ovf
        [Op.add 0 { name := "snmp", tags := tags, fields := AList.singleton "in" v1, hashID := id },
         Op.add 5 { name := "snmp", tags := tags, fields := AList.singleton "in" v2, hashID := id }]).map
        Rate.Push =
      some [{ name := "snmp", fields := AList.singleton "in_rate" 800, tags := tags }] := by
  have h1 : convert v1 = some (F64.ofInt 1000) := by
    rcases hv1 with h | h | h <;> subst h <;> rfl
  have h2 : convert v2 = some (F64.ofInt 1500) := by
    rcases hv2 with h | h | h <;> subst h <;> rfl
  have hm : scan "snmp" ["snmp"] = true := by decide
  have hb : scan "in" ["in"] = true := by decide
  have hge : F64.ge (F64.ofInt 1500) (F64.ofInt 1000) = true := by decide!
  have hx : (F64.ofInt 1500 - F64.ofInt 1000) / F64.ofInt 5 * F64.ofInt 8
      = F64.fin false 7036874417766400 (-43) := by decide!
  have ht : F64.toInt64 ovf (F64.fin false 7036874417766400 (-43)) = 800 := by
    have hv : F64.signed false (7036874417766400 * F64.pow2 (-43) / F64.pow2 (-(-43))) = 800 := by
      decide!
    simp only [F64.toInt64, hv]
    rw [if_pos (by decide)]
  have hs : ("in" ++ "_rate" : String) = "in_rate" := by decide
  have hw : wrap64 5 = 5 := by decide!
  have e1 : (configured "_rate" ["snmp"] [] ["in"]).Add ovf 0
      { name := "snmp", tags := tags, fields := AList.singleton "in" v1, hashID := id } =
      some { cache := some (AList.singleton id
               { fields := AList.singleton "in" { val := F64.ofInt 1000, timestamp := 0, rate := 0 },
                 name := "snmp", tags := tags }),
             Suffix := "_rate", Metrics := ["snmp"], RateFields := [], BitRateFields := ["in"] } := by
    simp [Rate.Add, configured, NewRate, Rate.Reset, Rate.IsRateMetric, Rate.IsBitRateField,
      Rate.IsRateField, hm, hb, Rate.initField, h1]
  have e2 : Rate.Add ovf
      { cache := some (AList.singleton id
               { fields := AList.singleton "in" { val := F64.ofInt 1000, timestamp := 0, rate := 0 },
                 name := "snmp", tags := tags }),
             Suffix := "_rate", Metrics := ["snmp"], RateFields := [], BitRateFields := ["in"] } 5
      { name := "snmp", tags := tags, fields := AList.singleton "in" v2, hashID := id } =
      some { cache := some (AList.singleton id
               { fields := AList.singleton "in" { val := F64.ofInt 1500, timestamp := 5, rate := 800 },
                 name := "snmp", tags := tags }),
             Suffix := "_rate", Metrics := ["snmp"], RateFields := [], BitRateFields := ["in"] } := by
    simp [Rate.Add, Rate.IsRateMetric, Rate.IsBitRateField,
      Rate.IsRateField, hm, hb, Rate.updateField, h2, Rate.newRate, hw, hge, hx, ht,
      ← AList.insert_empty, AList.lookup_insert, AList.insert_insert]
  simp only [Rate.run, Rate.apply, e1, e2, Option.some_bind, Option.map_some', Option.some.injEq]
  simp [Rate.Push, Rate.render, hs, AList.singleton_entries, AList.insert_empty]

/-- Witness of C15: the scenario with `int64` values, the tag
`if_name = eth0` and the series key 7, on amd64. -/
theorem concrete_scenario_witness :
    ((configured "_rate" ["snmp"] [] ["in"]).run F64.amd64
        [Op.add 0 { name := "snmp", tags := AList.singleton "if_name" "eth0",
                    fields := AList.singleton "in" (Value.int64 1000), hashID := 7 },
         Op.add 5 { name := "snmp", tags := AList.singleton "if_name" "eth0",
                    fields := AList.singleton "in" (Value.int64 1500), hashID := 7 }]).map
        Rate.Push =
      some [{ name := "snmp", fields := AList.singleton "in_rate" 800,
              tags := AList.singleton "if_name" "eth0" }] :=
  concrete_scenario F64.amd64 (AList.singleton "if_name" "eth0") 7 (Value.int64 1000)
    (Value.int64 1500) (Or.inl rfl) (Or.inl rfl)

/-- C16. Field Selector is list membership: each of `IsRateMetric`,
`IsRateField` and `IsBitRateField` is true exactly on the elements of its
list, and false on every name when the list is empty. -/
theorem selector_is_membership (m : Rate) (s : String) :
    (m.IsRateMetric s = true ↔ s ∈ m.Metrics) ∧
    (m.IsRateField s = true ↔ s ∈ m.RateFields) ∧
    (m.IsBitRateField s = true ↔ s ∈ m.BitRateFields) ∧
    (m.Metrics = [] → m.IsRateMetric s = false) ∧
    (m.RateFields = [] → m.IsRateField s = false) ∧
    (m.BitRateFields = [] → m.IsBitRateField s = false) := by
  refine ⟨scan_iff _ _, scan_iff _ _, scan_iff _ _, ?_, ?_, ?_⟩
  · intro h
    simp [Rate.IsRateMetric, h, scan]
  · intro h
    simp [Rate.IsRateField, h, scan]
  · intro h
    simp [Rate.IsBitRateField, h, scan]

/-- C17. Starvation under fast sampling: a configured field `k` of a series
is first observed by an `Add`, and every later `Add` of the sequence
observes it again on that series less than two seconds after the previous
one; then after every `Add` of the sequence (after the first `n + 1` of them,
for every `n`) the rate of `k` is 0, however long the sequence and whatever
the values.  The gap between two observations is the `int64` difference of
their clock readings, as `Add` computes it: it is `b - a` itself whenever
`-2^63 ≤ b - a < 2^63`, so every gap of 0 or 1 second is covered, and so is a
clock that steps back. -/
theorem starvation (ovf : F64 → Int) (m : Rate) (c : AList (fun _ : Nat => aggregate))
    (k : String) (id : Nat) (first : Int × Metric) (obs : List (Int × Metric)) (n : Nat)
    (hc : m.cache = some c) (hk : k ∈ m.RateFields ∨ k ∈ m.BitRateFields)
    (hnew : m.state id k = none)
    (hall : ∀ p ∈ first :: obs, p.2.hashID = id ∧ p.2.name ∈ m.Metrics ∧
      ∃ v fv, p.2.fields.lookup k = some v ∧ convert v = some fv)
    (hgap : List.Chain' (fun a b : Int × Metric => wrap64 (b.1 - a.1) < 2) (first :: obs)) :
    ∃ m1 st, m.run ovf (((first :: obs).take (n + 1)).map fun p => Op.add p.1 p.2) = some m1 ∧
      m1.state id k = some st ∧ st.rate = 0 := by
  obtain ⟨hid, hm, v, fv, hv, hfv⟩ := hall first (List.mem_cons_self _ _)
  obtain ⟨m1, c1, h1, hc1, -, e2, e3, e4, -, h3⟩ := Add_state ovf m first.1 first.2 c hc hm
  have hs1 := h3 k
  rw [hv, hid] at hs1
  simp only [] at hs1
  rw [step_numeric ovf m first.1 k v fv _ hk hfv, hnew] at hs1
  simp only [] at hs1
  have hchain : List.Chain (fun a b : Int => wrap64 (b - a) < 2) first.1
      ((obs.take n).map Prod.fst) := by
    have h2 : List.Chain' (fun a b : Int × Metric => wrap64 (b.1 - a.1) < 2)
        (first :: obs.take n) := by
      have := hgap.take (n + 1)
      simpa using this
    exact (List.chain_map Prod.fst).mpr h2
  obtain ⟨m2, st, g1, g2, g3⟩ :=
    starve_run ovf k id (obs.take n) m1 c1 { val := fv, timestamp := first.1, rate := 0 } hc1
      (by rw [e3, e4]; exact hk) hs1 rfl
      (fun q hq => by
        obtain ⟨a, b, c⟩ := hall q (List.mem_cons_of_mem _ (List.mem_of_mem_take hq))
        exact ⟨a, e2 ▸ b, c⟩)
      hchain
  refine ⟨m2, st, ?_, g2, g3⟩
  simp only [List.take_succ_cons, List.map_cons, Rate.run, Rate.apply, h1, Option.some_bind]
  exact g1

/-- Witness of C17: `in` is first seen at second 0 and seen again at seconds
1 and 2 with values that grow a million-fold; the rate is 0 after the third
`Add`. -/
theorem starvation_witness :
    ∃ m1 st,
      sampleEngine.run F64.amd64
        (([((0 : Int), sampleMetric (AList.singleton "in" (Value.int64 1))),
           (1, sampleMetric (AList.singleton "in" (Value.int64 1000000))),
           (2, sampleMetric (AList.singleton "in" (Value.int64 1000000000000)))].take (2 + 1)).map
          fun p => Op.add p.1 p.2) = some m1 ∧
      m1.state 7 "in" = some st ∧ st.rate = 0 :=
  starvation F64.amd64 sampleEngine ∅ "in" 7
    (0, sampleMetric (AList.singleton "in" (Value.int64 1)))
    [(1, sampleMetric (AList.singleton "in" (Value.int64 1000000))),
     (2, sampleMetric (AList.singleton "in" (Value.int64 1000000000000)))] 2
    rfl (by decide!) (by decide!)
    (by
      intro p hp
      simp only [List.mem_cons, List.mem_singleton, List.not_mem_nil, or_false] at hp
      rcases hp with rfl | rfl | rfl
      · exact ⟨rfl, by decide!, Value.int64 1, F64.ofInt 1, by decide!, rfl⟩
      · exact ⟨rfl, by decide!, Value.int64 1000000, F64.ofInt 1000000, by decide!, rfl⟩
      · exact ⟨rfl, by decide!, Value.int64 1000000000000, F64.ofInt 1000000000000,
          by decide!, rfl⟩)
    (by
      simp only [List.chain'_cons, List.chain'_singleton, and_true]
      constructor <;> decide!)

/-- C18, counterexample. The field `in` is listed in `RateFields` and in
`BitRateFields`; two cached states at which the stored rate is not the
truncation of the claim, although two seconds or more have elapsed and the
value has not decreased.
First, the state `(0, 0, 0)` and the `int64` value `2^61` at second 2: the
quotient times 8 is `2^63`, which does not fit in `int64`, and on amd64 `Add`
stores `-2^63`.
Second, the state `(0, -2^62, 0)` and the `int64` value `2^62` at clock
reading `2^62`: the elapsed time is `2^63` and 8 times the quotient
truncates to 4, but the `int64` difference of the clock readings is `-2^63`,
below 2, and `Add` keeps the rate 0. -/
theorem bitrate_wins_counterexample :
    ((((Rate.Add F64.amd64
          { sampleCached "in" { val := F64.ofInt 0, timestamp := 0, rate := 0 } with
            RateFields := ["in"] }
          2 (sampleMetric (AList.singleton "in" (Value.int64 2305843009213693952)))).bind
        fun m1 => m1.state 7 "in").map last.rate = some (-9223372036854775808)) ∧
      (2 : Int) ≤ 2 - 0 ∧
      F64.ge (F64.ofInt 2305843009213693952) (F64.ofInt 0) = true ∧
      F64.trunc ((F64.ofInt 2305843009213693952 - F64.ofInt 0) / F64.ofInt (2 - 0) *
          F64.ofInt 8) = some 9223372036854775808) ∧
    ((((Rate.Add F64.amd64
          { sampleCached "in"
              { val := F64.ofInt 0, timestamp := -4611686018427387904, rate := 0 } with
            RateFields := ["in"] }
          4611686018427387904
          (sampleMetric (AList.singleton "in" (Value.int64 4611686018427387904)))).bind
        fun m1 => m1.state 7 "in").map last.rate = some 0) ∧
      (2 : Int) ≤ 4611686018427387904 - (-4611686018427387904) ∧
      F64.ge (F64.ofInt 4611686018427387904) (F64.ofInt 0) = true ∧
      F64.trunc ((F64.ofInt 4611686018427387904 - F64.ofInt 0) /
          F64.ofInt (4611686018427387904 - (-4611686018427387904)) * F64.ofInt 8) = some 4) := by
  refine ⟨⟨?_, ?_, ?_, ?_⟩, ⟨?_, ?_, ?_, ?_⟩⟩ <;> decide!

/-- C18, amended. Bit-rate wins over rate: for a field `k` listed in
`BitRateFields`, whether or not it is listed in `RateFields` as well, an
`Add` with an elapsed time of at least 2 and below `2^63` (the `int64`
subtraction does not overflow) and a value that has not decreased stores the
integer part of `(fv - ld.val) / elapsed * 8`, whenever that integer part
fits in `int64`; and, whatever the elapsed time and the value, the state of
`k` after the `Add` is the same whatever list `RateFields` is.  The quotient
and the product are those of `float64`; the integer part `t` is the exact
truncation toward zero. -/
theorem bitrate_wins (ovf : F64 → Int) (m : Rate) (ts : Int) (inp : Metric) (k : String)
    (v : Value) (fv : F64) (ld : last) (rateFields : List String)
    (hm : inp.name ∈ m.Metrics)
    (hst : m.state inp.hashID k = some ld)
    (hv : inp.fields.lookup k = some v) (hfv : convert v = some fv)
    (hb : k ∈ m.BitRateFields) :
    (2 ≤ ts - ld.timestamp → ts - ld.timestamp < 2 ^ 63 → F64.ge fv ld.val = true →
      ∃ m1 st, m.Add ovf ts inp = some m1 ∧ m1.state inp.hashID k = some st ∧
        ∀ t, F64.trunc ((fv - ld.val) / F64.ofInt (ts - ld.timestamp) * F64.ofInt 8) = some t →
          -2 ^ 63 ≤ t → t < 2 ^ 63 → st.rate = t) ∧
    (Rate.Add ovf { m with RateFields := rateFields } ts inp).map
        (fun m1 => m1.state inp.hashID k) =
      (m.Add ovf ts inp).map (fun m1 => m1.state inp.hashID k) := by
  obtain ⟨c, hc⟩ : ∃ c, m.cache = some c := by
    cases hc : m.cache with
    | none => simp [Rate.state, hc] at hst
    | some c => exact ⟨c, rfl⟩
  obtain ⟨m1, c1, h1, -, -, -, -, -, -, h3⟩ := Add_state ovf m ts inp c hc hm
  obtain ⟨m2, c2, g1, -, -, -, -, -, -, g3⟩ :=
    Add_state ovf { m with RateFields := rateFields } ts inp c hc hm
  have hst2 : Rate.state { m with RateFields := rateFields } inp.hashID k = some ld := hst
  have s1 := h3 k
  rw [hv] at s1
  simp only [] at s1
  rw [step_numeric ovf m ts k v fv _ (Or.inr hb) hfv, hst] at s1
  simp only [] at s1
  have s2 := g3 k
  rw [hv] at s2
  simp only [] at s2
  rw [step_numeric ovf { m with RateFields := rateFields } ts k v fv _ (Or.inr hb) hfv,
    hst2] at s2
  simp only [] at s2
  have hnr : Rate.newRate { m with RateFields := rateFields } ts k fv ld = m.newRate ts k fv ld :=
    rfl
  rw [hnr] at s2
  refine ⟨fun hel hfit hge => ⟨m1, _, h1, s1, fun t ht h1 h2 => ?_⟩, ?_⟩
  · simp only []
    rw [newRate_recompute m ts k fv ld hel hfit hge, if_pos hb]
    exact F64.toInt64_of_trunc ovf _ t ht h1 h2
  · rw [h1, g1]
    simp only [Option.map_some', s1, s2]

/-- Witness of C18: `in` is listed as a rate field and as a bit-rate field;
1000 at second 0 then 1500 at second 5 stores 800, not 100. -/
theorem bitrate_wins_witness :
    ∃ m1 st,
      Rate.Add F64.amd64
        { sampleWarm with
          cache := (sampleCached "in" { val := F64.ofInt 1000, timestamp := 0, rate := 0 }).cache,
          RateFields := ["in"] }
        5 (sampleMetric (AList.singleton "in" (Value.int64 1500))) = some m1 ∧
      m1.state 7 "in" = some st ∧ st.rate = 800 := by
  obtain ⟨h, -⟩ :=
    bitrate_wins F64.amd64
      { sampleWarm with
        cache := (sampleCached "in" { val := F64.ofInt 1000, timestamp := 0, rate := 0 }).cache,
        RateFields := ["in"] }
      5 (sampleMetric (AList.singleton "in" (Value.int64 1500))) "in" (Value.int64 1500)
      (F64.ofInt 1500) { val := F64.ofInt 1000, timestamp := 0, rate := 0 } []
      (by decide!) (by decide!) (by decide!) rfl (by decide!)
  obtain ⟨m1, st, h1, h2, h3⟩ := h (by decide!) (by decide!) (by decide!)
  exact ⟨m1, st, h1, h2, h3 800 (by decide!) (by decide!) (by decide!)⟩

/-- C19. An eligible snapshot with no qualifying field still creates a
series: when the metric is eligible, its key is not cached and none of its
fields is both configured and numeric, the cache after `Add` holds under
that key an entry with the name and the tags of the snapshot and an empty
field map, and `Push` then emits for it a record with an empty field map. -/
theorem empty_series_created (ovf : F64 → Int) (m : Rate)
    (c : AList (fun _ : Nat => aggregate)) (ts : Int) (inp : Metric)
    (hc : m.cache = some c) (hm : inp.name ∈ m.Metrics)
    (hnew : c.lookup inp.hashID = none)
    (hnone : ∀ k v, inp.fields.lookup k = some v →
      ¬ ((k ∈ m.RateFields ∨ k ∈ m.BitRateFields) ∧ (convert v).isSome = true)) :
    ∃ m1 c1, m.Add ovf ts inp = some m1 ∧ m1.cache = some c1 ∧
      c1.lookup inp.hashID = some { fields := ∅, name := inp.name, tags := inp.tags } ∧
      ({ name := inp.name, fields := ∅, tags := inp.tags } : Record) ∈ m1.Push := by
  have hfold : inp.fields.entries.foldl (fun fs kv => m.initField ts fs kv.1 kv.2) ∅ = ∅ := by
    apply foldl_initField_skip
    intro kv hkv
    exact hnone kv.1 kv.2 (AList.mem_lookup_iff.mpr hkv)
  have hadd : m.Add ovf ts inp =
      some { m with
             cache := some (c.insert inp.hashID
               { fields := ∅, name := inp.name, tags := inp.tags }) } := by
    simp only [Rate.Add, Rate.IsRateMetric, (scan_iff _ _).mpr hm, hc, hnew, hfold]
    rfl
  refine ⟨_, _, hadd, rfl, AList.lookup_insert _, ?_⟩
  have hmem : Sigma.mk inp.hashID
      ({ fields := ∅, name := inp.name, tags := inp.tags } : aggregate) ∈
      (c.insert inp.hashID { fields := ∅, name := inp.name, tags := inp.tags }).entries :=
    AList.mem_lookup_iff.mp (AList.lookup_insert _)
  simp only [Rate.Push, List.mem_map]
  exact ⟨_, hmem, rfl⟩

/-- Witness of C19: the empty sample engine receives an `snmp` snapshot
whose only fields are a string and an unconfigured counter. -/
theorem empty_series_created_witness :
    ∃ m1 c1,
      sampleEngine.Add F64.amd64 4
        (sampleMetric ((AList.singleton "in" (Value.str "down")).insert "errors"
          (Value.int64 3))) = some m1 ∧
      m1.cache = some c1 ∧
      c1.lookup 7 = some { fields := ∅, name := "snmp",
                           tags := AList.singleton "if_name" "eth0" } ∧
      ({ name := "snmp", fields := ∅, tags := AList.singleton "if_name" "eth0" } : Record)
        ∈ m1.Push :=
  empty_series_created F64.amd64 sampleEngine ∅ 4
    (sampleMetric ((AList.singleton "in" (Value.str "down")).insert "errors" (Value.int64 3)))
    rfl (by decide!) (by decide!) (by
      intro k v hkv
      have hmem := AList.mem_lookup_iff.mp hkv
      have hent : (sampleMetric ((AList.singleton "in" (Value.str "down")).insert "errors"
          (Value.int64 3))).fields.entries =
          [⟨"errors", Value.int64 3⟩, ⟨"in", Value.str "down"⟩] := by decide!
      rw [hent] at hmem
      simp only [List.mem_cons, List.mem_singleton, List.not_mem_nil, or_false] at hmem
      rcases hmem with h | h
      · cases h
        rintro ⟨hcfg, -⟩
        revert hcfg
        decide
      · cases h
        rintro ⟨-, hnum⟩
        simp [convert] at hnum)

/-- C20. `Add` is independent of the field iteration order: the state of a
field `k` after `Add` is determined by the two field lists, the clock
reading, the state of `k` before and the value the snapshot has for `k`;
hence two snapshots whose field maps list the same entries in different
orders leave the same cache (the same name and tags for every series, the
same state for every field of every series); and `Add` leaves every series
other than the snapshot's own as it was. -/
theorem add_order_independent (ovf : F64 → Int) (m : Rate) (ts : Int) (inp : Metric) :
    (∀ (m2 : Rate) (inp2 : Metric) (k : String) (c c2 : AList (fun _ : Nat => aggregate)),
      m.cache = some c → m2.cache = some c2 →
      inp.name ∈ m.Metrics → inp2.name ∈ m2.Metrics →
      m.RateFields = m2.RateFields → m.BitRateFields = m2.BitRateFields →
      m.state inp.hashID k = m2.state inp2.hashID k →
      inp.fields.lookup k = inp2.fields.lookup k →
      ∃ r1 r2, m.Add ovf ts inp = some r1 ∧ m2.Add ovf ts inp2 = some r2 ∧
        r1.state inp.hashID k = r2.state inp2.hashID k) ∧
    (∀ (fields2 : StrMap Value), fields2.entries.Perm inp.fields.entries →
      ∀ id, (m.Add ovf ts inp).map (fun r => r.series id) =
          (m.Add ovf ts { inp with fields := fields2 }).map (fun r => r.series id) ∧
        ∀ k, (m.Add ovf ts inp).map (fun r => r.state id k) =
          (m.Add ovf ts { inp with fields := fields2 }).map (fun r => r.state id k)) ∧
    ∀ m1, m.Add ovf ts inp = some m1 → ∀ id, id ≠ inp.hashID →
      m1.series id = m.series id ∧ ∀ k, m1.state id k = m.state id k := by
  refine ⟨?_, ?_, ?_⟩
  · intro m2 inp2 k c c2 hc hc2 hm hm2 hr hb hst hv
    obtain ⟨r1, g1, g2⟩ := Add_state_all ovf m ts inp c hc hm
    obtain ⟨r2, f1, f2⟩ := Add_state_all ovf m2 ts inp2 c2 hc2 hm2
    refine ⟨r1, r2, g1, f1, ?_⟩
    rw [g2, f2]
    simp only [if_true]
    rw [hv, hst]
    cases inp2.fields.lookup k with
    | none => rfl
    | some v => exact step_congr ovf m m2 hr hb ts k v _
  · intro fields2 hperm id
    have hlk : ∀ k, fields2.lookup k = inp.fields.lookup k :=
      fun k => AList.perm_lookup hperm
    by_cases hm : inp.name ∈ m.Metrics
    · cases hc : m.cache with
      | none =>
        rw [Add_nil ovf m ts inp hm hc, Add_nil ovf m ts { inp with fields := fields2 } hm hc]
        exact ⟨rfl, fun _ => rfl⟩
      | some c =>
        obtain ⟨r1, g1, g2⟩ := Add_state_all ovf m ts inp c hc hm
        obtain ⟨r2, f1, f2⟩ := Add_state_all ovf m ts { inp with fields := fields2 } c hc hm
        obtain ⟨r3, p1, p2⟩ := Add_series ovf m ts inp c hc hm
        obtain ⟨r4, q1, q2⟩ := Add_series ovf m ts { inp with fields := fields2 } c hc hm
        rw [g1] at p1
        rw [f1] at q1
        simp only [Option.some.injEq] at p1 q1
        subst p1
        subst q1
        rw [g1, f1]
        simp only [Option.map_some', Option.some.injEq]
        refine ⟨?_, fun k => ?_⟩
        · rw [p2, q2]
        · rw [g2, f2]
          simp only [hlk k]
    · rw [Add_ineligible ovf m ts inp hm,
        Add_ineligible ovf m ts { inp with fields := fields2 } hm]
      exact ⟨rfl, fun _ => rfl⟩
  · intro m1 h1 id hid
    by_cases hm : inp.name ∈ m.Metrics
    · cases hc : m.cache with
      | none => rw [Add_nil ovf m ts inp hm hc] at h1; cases h1
      | some c =>
        obtain ⟨r1, g1, g2⟩ := Add_state_all ovf m ts inp c hc hm
        obtain ⟨r3, p1, p2⟩ := Add_series ovf m ts inp c hc hm
        rw [h1] at g1 p1
        simp only [Option.some.injEq] at g1 p1
        subst g1
        subst p1
        refine ⟨?_, fun k => ?_⟩
        · rw [p2, if_neg hid]
        · rw [g2, if_neg hid]
    · rw [Add_ineligible ovf m ts inp hm] at h1
      simp only [Option.some.injEq] at h1
      subst h1
      exact ⟨rfl, fun _ => rfl⟩

/-- Witness of C20: the warm sample engine receives `in = 2000` and
`in_pkts = 5` at second 9, the two fields listed in one order and in the
other; the states of `in` and of `in_pkts` come out the same. -/
theorem add_order_independent_witness :
    (sampleWarm.Add F64.amd64 9
        (sampleMetric ((AList.singleton "in" (Value.int64 2000)).insert "in_pkts"
          (Value.int64 5)))).map (fun r => r.state 7 "in") =
      (sampleWarm.Add F64.amd64 9
        (sampleMetric ((AList.singleton "in_pkts" (Value.int64 5)).insert "in"
          (Value.int64 2000)))).map (fun r => r.state 7 "in") ∧
    (sampleWarm.Add F64.amd64 9
        (sampleMetric ((AList.singleton "in" (Value.int64 2000)).insert "in_pkts"
          (Value.int64 5)))).map (fun r => r.state 7 "in_pkts") =
      (sampleWarm.Add F64.amd64 9
        (sampleMetric ((AList.singleton "in_pkts" (Value.int64 5)).insert "in"
          (Value.int64 2000)))).map (fun r => r.state 7 "in_pkts") := by
  have hperm : ((AList.singleton "in_pkts" (Value.int64 5) : StrMap Value).insert "in"
      (Value.int64 2000)).entries.Perm
      ((AList.singleton "in" (Value.int64 2000) : StrMap Value).insert "in_pkts"
        (Value.int64 5)).entries := by
    have e1 : ((AList.singleton "in_pkts" (Value.int64 5) : StrMap Value).insert "in"
        (Value.int64 2000)).entries =
        [⟨"in", Value.int64 2000⟩, ⟨"in_pkts", Value.int64 5⟩] := by decide!
    have e2 : ((AList.singleton "in" (Value.int64 2000) : StrMap Value).insert "in_pkts"
        (Value.int64 5)).entries =
        [⟨"in_pkts", Value.int64 5⟩, ⟨"in", Value.int64 2000⟩] := by decide!
    rw [e1, e2]
    exact List.Perm.swap _ _ _
  have h := (add_order_independent F64.amd64 sampleWarm 9
    (sampleMetric ((AList.singleton "in" (Value.int64 2000) : StrMap Value).insert "in_pkts"
      (Value.int64 5)))).2.1
    ((AList.singleton "in_pkts" (Value.int64 5) : StrMap Value).insert "in" (Value.int64 2000))
    hperm 7
  exact ⟨h.2 "in", h.2 "in_pkts"⟩
